import Mathlib

/-!
Verification of the audio forensic analysis pipeline
(`scripts/audio_analysis.py`, `scripts/live_audio_analysis.py`).

Real-valued audio samples, per-frame spectral features and transform
magnitudes are modelled as rationals; floating point `log10` has no exact
rational counterpart and is passed in as an uninterpreted function that no
property below constrains.  Fallible NumPy operations (reductions over
zero-size arrays, out-of-range indexing, `range` with zero step) are
modelled with `Except String`, mirroring the scripts' `try/except` blocks
that turn any raised exception into an analysis-failure result.
-/

namespace AudioForensic

/-- Round half to even on rationals, the tie-breaking mode used by Python's
builtin `round` (and NumPy's `round`) that produces the stored report
values.  Samples are idealized as exact rationals, so the binary
floating-point representation error that can shift a Python `round` of a
non-representable decimal is outside the model; no property below depends
on the rounding of any particular value. -/
def roundq (q : ℚ) : ℤ :=
  let f : ℤ := ⌊q⌋
  let r : ℚ := q - f
  if r < 1/2 then f
  else if 1/2 < r then f + 1
  else if f % 2 = 0 then f else f + 1

/-- Python `round(q, d)` to `d` decimal places. -/
def rnd (d : ℕ) (q : ℚ) : ℚ := (roundq (q * 10 ^ d) : ℚ) / 10 ^ d

/-- A decibel level: either the `-np.inf` sentinel produced for zero
amplitude, or a finite level.  Finite levels are `20 * log10 a`, computed
through the uninterpreted `log10` parameter of the pipeline. -/
inductive Db where
  | negInf : Db
  | val : ℚ → Db
deriving DecidableEq, Repr

/-- Python `round` on a decibel level; `round(-inf, d)` is `-inf`. -/
def Db.round (d : ℕ) : Db → Db
  | .negInf => .negInf
  | .val q => .val (rnd d q)

/-- `20 * np.log10(a) if a > 0 else -np.inf`
(`audio_analysis.py` lines 83 and 107, `live_audio_analysis.py` line 170). -/
def dbOf (log10 : ℚ → ℚ) (a : ℚ) : Db :=
  if 0 < a then .val (20 * log10 a) else .negInf

/-- Basic single-feature classifier, `audio_analysis.py` lines 93-100:
the `if/elif` chain on the dominant frequency at a peak. -/
def classifyBasic (f : ℚ) : String :=
  if f < 300 then "Low Frequency/Bass"
  else if f < 1000 then "Voice/Mid Range"
  else if f < 4000 then "High Voice/Instruments"
  else "High Frequency/Noise"

/-- Extended multi-feature classifier, `live_audio_analysis.py` lines
153-167: ordered rules over centroid, rolloff and zero-crossing rate,
returning a label and a confidence. -/
def classifyExtended (c r z : ℚ) : String × ℚ :=
  if c < 1000 ∧ r < 2000 then ("Low Frequency/Bass", 0.8)
  else if c < 3000 ∧ z < 0.1 then ("Voice/Speech", 0.9)
  else if 4000 < c ∧ 8000 < r then ("High Frequency/Noise", 0.7)
  else if 0.15 < z then ("Percussive/Transient", 0.85)
  else ("Mixed/Complex", 0.6)

/-- C2: the Extended classifier, given centroid `c`, rolloff `r` and
zero-crossing rate `z`, evaluates its rules in this exact order with first
match winning: `c<1000 ∧ r<2000` yields Low Frequency/Bass with confidence
0.8; else `c<3000 ∧ z<0.1` yields Voice/Speech with 0.9; else
`c>4000 ∧ r>8000` yields High Frequency/Noise with 0.7; else `z>0.15`
yields Percussive/Transient with 0.85; else Mixed/Complex with 0.6 —
for every input triple. -/
theorem classifyExtended_ordered_rules (c r z : ℚ) :
    (c < 1000 ∧ r < 2000 → classifyExtended c r z = ("Low Frequency/Bass", 0.8)) ∧
    (¬(c < 1000 ∧ r < 2000) → c < 3000 ∧ z < 0.1 →
      classifyExtended c r z = ("Voice/Speech", 0.9)) ∧
    (¬(c < 1000 ∧ r < 2000) → ¬(c < 3000 ∧ z < 0.1) → 4000 < c ∧ 8000 < r →
      classifyExtended c r z = ("High Frequency/Noise", 0.7)) ∧
    (¬(c < 1000 ∧ r < 2000) → ¬(c < 3000 ∧ z < 0.1) → ¬(4000 < c ∧ 8000 < r) →
      0.15 < z → classifyExtended c r z = ("Percussive/Transient", 0.85)) ∧
    (¬(c < 1000 ∧ r < 2000) → ¬(c < 3000 ∧ z < 0.1) → ¬(4000 < c ∧ 8000 < r) →
      ¬(0.15 < z) → classifyExtended c r z = ("Mixed/Complex", 0.6)) := by
  unfold classifyExtended
  refine ⟨fun h1 => ?_, fun h1 h2 => ?_, fun h1 h2 h3 => ?_,
    fun h1 h2 h3 h4 => ?_, fun h1 h2 h3 h4 => ?_⟩ <;> split_ifs <;> rfl

/-- Witness for C2: a concrete bass-rule triple. -/
theorem classifyExtended_ordered_rules_witness :
    classifyExtended 500 1500 (1/2) = ("Low Frequency/Bass", 0.8) :=
  (classifyExtended_ordered_rules 500 1500 (1/2)).1 (by norm_num)

/-- C5: the Basic classifier, given dominant frequency `f` at a peak,
returns Low Frequency/Bass when `f < 300`, Voice/Mid Range when
`300 ≤ f < 1000`, High Voice/Instruments when `1000 ≤ f < 4000`, and
High Frequency/Noise otherwise — for every `f`.  Its result is a bare
label with no confidence score. -/
theorem classifyBasic_thresholds (f : ℚ) :
    (f < 300 → classifyBasic f = "Low Frequency/Bass") ∧
    (300 ≤ f → f < 1000 → classifyBasic f = "Voice/Mid Range") ∧
    (1000 ≤ f → f < 4000 → classifyBasic f = "High Voice/Instruments") ∧
    (4000 ≤ f → classifyBasic f = "High Frequency/Noise") := by
  unfold classifyBasic
  refine ⟨fun h1 => ?_, fun h1 h2 => ?_, fun h1 h2 => ?_, fun h1 => ?_⟩ <;>
    split_ifs <;> first | rfl | (exfalso; linarith)

/-- Witness for C5: 440 Hz is classified as Voice/Mid Range. -/
theorem classifyBasic_thresholds_witness :
    classifyBasic 440 = "Voice/Mid Range" :=
  (classifyBasic_thresholds 440).2.1 (by norm_num) (by norm_num)

/-- Python `range(0, stop, step)` as a list, for positive `step`
(the scripts only ever use step 512).  `range` with a zero step raises in
Python; the only place the scripts can produce a zero step is the spectrum
stride, modelled separately in `buildSpectrum`. -/
def pyRange (stop step : ℕ) : List ℕ :=
  List.range' 0 ((stop + step - 1) / step) step

/-- NumPy `np.max` over a 1-d array: the maximum element, raising on a
zero-size array. -/
def npMax (xs : List ℚ) : Except String ℚ :=
  match xs with
  | [] => .error "zero-size array to reduction operation maximum which has no identity"
  | x :: r => .ok (r.foldl max x)

/-- NumPy `np.max`, restricted to call sites the scripts only reach with a
non-empty array (the spectrum-normalization branch guards with
`i < len(magnitude)`); the empty case is unreachable there and gets a junk
value. -/
def npMaxD (xs : List ℚ) : ℚ :=
  match xs with
  | [] => 0
  | x :: r => r.foldl max x

/-- NumPy `np.mean`.  On an empty array NumPy returns NaN (with a warning,
not an exception); NaN has no rational counterpart and is modelled as the
junk value `0/0 = 0`, which no property below inspects. -/
def npMean (xs : List ℚ) : ℚ := xs.sum / (xs.length : ℚ)

/-- `np.linspace(a, b, n)` with endpoint included (exact rational values of
the frequency axis `np.linspace(0, sr, len(magnitude))`). -/
def linspace (a b : ℚ) (n : ℕ) : List ℚ :=
  if n = 0 then []
  else if n = 1 then [a]
  else (List.range n).map fun i : ℕ => a + (b - a) * (i : ℚ) / ((n : ℚ) - 1)

/-- Frame Energy Extractor, `audio_analysis.py` lines 60-63 and
`live_audio_analysis.py` lines 104-107: for each start offset
`0, hop, 2*hop, ...` strictly below the signal length, the sum of
`abs(v**2)` over the frame window `[offset, offset+frameLength)`, the
window clipped at the signal end by Python slicing. -/
def frameEnergies (frameLength hopLength : ℕ) (y : List ℚ) : List ℚ :=
  (pyRange y.length hopLength).map fun i =>
    (((y.drop i).take frameLength).map fun v => |v ^ 2|).sum

/-- Energy normalization, `audio_analysis.py` line 66 and
`live_audio_analysis.py` lines 110-111: divide by the global maximum when
it is positive, leave the values unchanged otherwise; evaluating
`np.max(energy)` raises on an empty energy array. -/
def normalizeEnergy (es : List ℚ) : Except String (List ℚ) := do
  let m ← npMax es
  if 0 < m then pure (es.map (· / m)) else pure es

theorem except_bind_ok {α β : Type _} (a : α) (f : α → Except String β) :
    (Except.ok a >>= f) = f a := rfl

theorem except_bind_err {α β : Type _} (e : String) (f : α → Except String β) :
    ((Except.error e : Except String α) >>= f) = Except.error e := rfl

theorem foldl_max_spec (r : List ℚ) (x : ℚ) :
    (r.foldl max x = x ∨ r.foldl max x ∈ r) ∧ x ≤ r.foldl max x ∧
      ∀ v ∈ r, v ≤ r.foldl max x := by
  induction r generalizing x with
  | nil => exact ⟨Or.inl rfl, le_refl x, by simp⟩
  | cons a t ih =>
    have h := ih (max x a)
    refine ⟨?_, le_trans (le_max_left x a) h.2.1, ?_⟩
    · rcases h.1 with h1 | h1
      · rcases max_choice x a with h2 | h2
        · exact Or.inl (by rw [List.foldl_cons, h1, h2])
        · exact Or.inr (by rw [List.foldl_cons, h1, h2]; exact List.mem_cons_self a t)
      · exact Or.inr (List.mem_cons_of_mem a h1)
    · intro v hv
      rcases List.mem_cons.mp hv with rfl | hv
      · exact le_trans (le_max_right x v) h.2.1
      · exact h.2.2 v hv

theorem npMax_spec (xs : List ℚ) (hne : xs ≠ []) :
    ∃ m, npMax xs = .ok m ∧ m ∈ xs ∧ ∀ v ∈ xs, v ≤ m := by
  match xs with
  | [] => exact absurd rfl hne
  | x :: r =>
    refine ⟨r.foldl max x, rfl, ?_, ?_⟩
    · rcases (foldl_max_spec r x).1 with h | h
      · rw [h]; exact List.mem_cons_self x r
      · exact List.mem_cons_of_mem x h
    · intro v hv
      rcases List.mem_cons.mp hv with rfl | hv
      · exact (foldl_max_spec r v).2.1
      · exact (foldl_max_spec r x).2.2 v hv

theorem list_sum_getD (L : List ℚ) :
    L.sum = ∑ m ∈ Finset.range L.length, L.getD m 0 := by
  induction L with
  | nil => simp
  | cons a t ih =>
    rw [List.sum_cons, List.length_cons, Finset.sum_range_succ']
    simp only [List.getD_cons_succ, List.getD_cons_zero]
    rw [← ih, add_comm]

theorem getD_of_lt {α : Type _} (l : List α) (d : α) {n : ℕ} (h : n < l.length) :
    l.getD n d = l[n] := by
  rw [List.getD_eq_getElem?_getD, List.getElem?_eq_getElem h, Option.getD_some]

theorem sum_map_slice (f : ℚ → ℚ) (y : List ℚ) (i fl : ℕ) :
    (((y.drop i).take fl).map f).sum =
      ∑ j ∈ Finset.Ico i (min (i + fl) y.length), f (y.getD j 0) := by
  have hlen : ((y.drop i).take fl).length = min fl (y.length - i) := by
    simp [List.length_take, List.length_drop]
  have h1 : (((y.drop i).take fl).map f).sum =
      ∑ m ∈ Finset.range (min fl (y.length - i)), f (y.getD (i + m) 0) := by
    rw [list_sum_getD, List.length_map, hlen]
    refine Finset.sum_congr rfl fun m hm => ?_
    have hm2 : m < min fl (y.length - i) := Finset.mem_range.mp hm
    have hm3 : m < ((y.drop i).take fl).length := hlen ▸ hm2
    have hm4 : m < (((y.drop i).take fl).map f).length := by
      rw [List.length_map]; exact hm3
    have hy : i + m < y.length := by omega
    rw [getD_of_lt _ _ hm4, List.getElem_map, List.getElem_take, List.getElem_drop,
      getD_of_lt _ _ hy]
  rw [h1, Finset.sum_Ico_eq_sum_range]
  have hcnt : min (i + fl) y.length - i = min fl (y.length - i) := by omega
  rw [hcnt]

/-- C6 (amended): for every non-empty waveform and positive hop, the Frame
Energy Extractor computes, for each start offset `0, hop, 2*hop, ...`
strictly below the signal length, the sum of squared sample magnitudes over
`[offset, offset + frameLength)` clipped at the signal end, one value per
offset in offset order; normalization divides every value by the global
maximum of the envelope and leaves the values unchanged when that maximum
is zero.  (On the empty waveform the normalization step instead raises,
see the counterexample.) -/
theorem frame_energy_extractor (fl hl : ℕ) (y : List ℚ) (hhl : 0 < hl) (hy : y ≠ []) :
    (frameEnergies fl hl y).length = (y.length + hl - 1) / hl ∧
    (∀ k, k < (frameEnergies fl hl y).length →
      (frameEnergies fl hl y).getD k 0 =
        ∑ j ∈ Finset.Ico (k * hl) (min (k * hl + fl) y.length), (y.getD j 0) ^ 2) ∧
    (∃ m, npMax (frameEnergies fl hl y) = .ok m ∧ m ∈ frameEnergies fl hl y ∧
      (∀ e ∈ frameEnergies fl hl y, e ≤ m) ∧
      normalizeEnergy (frameEnergies fl hl y) =
        .ok (if 0 < m then (frameEnergies fl hl y).map (· / m) else frameEnergies fl hl y)) := by
  have hlen : (frameEnergies fl hl y).length = (y.length + hl - 1) / hl := by
    rw [frameEnergies, List.length_map, pyRange, List.length_range']
  refine ⟨hlen, fun k hk => ?_, ?_⟩
  · have hk2 : k < (y.length + hl - 1) / hl := hlen ▸ hk
    have hk3 : k < (pyRange y.length hl).length := by
      simp only [pyRange, List.length_range']; exact hk2
    have hoff : (pyRange y.length hl)[k] = k * hl := by
      simp only [pyRange, List.getElem_range']; ring
    have hkfe : k < (frameEnergies fl hl y).length := hk
    rw [frameEnergies] at hkfe ⊢
    rw [getD_of_lt _ _ hkfe, List.getElem_map, hoff, sum_map_slice]
    refine Finset.sum_congr rfl fun j hj => ?_
    have hjy : j < y.length := (Finset.mem_Ico.mp hj).2.trans_le (min_le_right _ _)
    exact abs_of_nonneg (sq_nonneg _)
  · have hne : frameEnergies fl hl y ≠ [] := by
      intro hcon
      have h0 : (frameEnergies fl hl y).length = 0 := by rw [hcon]; rfl
      rw [hlen] at h0
      have hy1 : 1 ≤ y.length := by
        rcases y with _ | _
        · exact absurd rfl hy
        · simp
      have : 1 ≤ (y.length + hl - 1) / hl := by
        rw [Nat.le_div_iff_mul_le hhl]; omega
      omega
    obtain ⟨m, hm1, hm2, hm3⟩ := npMax_spec _ hne
    refine ⟨m, hm1, hm2, hm3, ?_⟩
    simp only [normalizeEnergy, hm1, except_bind_ok]
    split_ifs with h <;> rfl

/-- C6 counterexample: on the empty waveform the extractor produces an
empty energy array, and the normalization step
`energy / np.max(energy) if np.max(energy) > 0 else energy` raises the
NumPy zero-size-reduction error instead of leaving the (no) values
unchanged. -/
theorem frame_energy_empty_counterexample :
    frameEnergies 1024 512 ([] : List ℚ) = [] ∧
    normalizeEnergy (frameEnergies 1024 512 ([] : List ℚ)) =
      .error "zero-size array to reduction operation maximum which has no identity" := by
  exact ⟨rfl, rfl⟩

/-- Witness for C6 on the waveform `[1, 2]`: a single frame of energy
`1^2 + 2^2 = 5`. -/
theorem frame_energy_extractor_witness :
    (frameEnergies 1024 512 [(1 : ℚ), 2]).length = (2 + 512 - 1) / 512 :=
  (frame_energy_extractor 1024 512 [(1 : ℚ), 2] (by norm_num) (by simp)).1

/-- Plateau scan of SciPy's `_local_maxima_1d` (called by
`scipy.signal.find_peaks`): starting at `j`, advance while
`j < x.length - 1` and `x[j] = v`.  The structural counter `c` carries
`x.length - 1 - j`, so `c > 0` is exactly the loop bound `i_ahead < i_max`. -/
def plateauEndAux (x : List ℚ) (v : ℚ) : ℕ → ℕ → ℕ
  | 0, j => j
  | c + 1, j => if x.getD j 0 = v then plateauEndAux x v c (j + 1) else j

/-- First index at or after `j` that either reaches `x.length - 1` or holds
a value different from `v` (`i_ahead` of SciPy `_local_maxima_1d`). -/
def plateauEnd (x : List ℚ) (v : ℚ) (j : ℕ) : ℕ :=
  plateauEndAux x v (x.length - 1 - j) j

/-- Main scan of SciPy `_local_maxima_1d`: for `i` from 1 while
`i < x.length - 1`, an index is recorded when `x[i-1] < x[i]` and the value
plateau starting at `i` is followed by a strictly smaller value; the
recorded index is the plateau midpoint `(left + right) / 2`, and the scan
resumes after the plateau.  The fuel argument is a structural bound on the
remaining iterations; `localMaxima` supplies `x.length`, which is
sufficient because `i` strictly increases. -/
def localMaximaAux (x : List ℚ) : ℕ → ℕ → List ℕ
  | 0, _ => []
  | fuel + 1, i =>
    if i + 1 < x.length then
      if x.getD (i - 1) 0 < x.getD i 0 then
        let a := plateauEnd x (x.getD i 0) (i + 1)
        if x.getD a 0 < x.getD i 0 then
          (i + (a - 1)) / 2 :: localMaximaAux x fuel (a + 1)
        else
          localMaximaAux x fuel (i + 1)
      else
        localMaximaAux x fuel (i + 1)
    else []

/-- All local maxima of SciPy `_local_maxima_1d`, in ascending order. -/
def localMaxima (x : List ℚ) : List ℕ := localMaximaAux x x.length 1

/-- One `keep[k] = 0` write of SciPy `_select_by_peak_distance`; the keep
mask is modelled as a function, updated pointwise. -/
def setFalse (keep : ℕ → Bool) (k : ℕ) : ℕ → Bool :=
  fun m => if m = k then false else keep m

/-- Left kill loop of `_select_by_peak_distance`: from `k = j - 1`
downwards while `0 ≤ k` and `peaks[j] - peaks[k] < d`, clear `keep[k]`.
The argument is the exclusive upper bound (`killLeftAux ... j` scans
`j - 1, j - 2, ...`), making the loop structural. -/
def killLeftAux (peaks : ℕ → ℕ) (d : ℤ) (pj : ℕ) : ℕ → (ℕ → Bool) → (ℕ → Bool)
  | 0, keep => keep
  | kk + 1, keep =>
    if (pj : ℤ) - peaks kk < d then killLeftAux peaks d pj kk (setFalse keep kk) else keep

/-- Right kill loop of `_select_by_peak_distance`: from `k = j + 1` upwards
while `k < n` and `peaks[k] - peaks[j] < d`, clear `keep[k]`.  The counter
`c` carries `n - k`. -/
def killRightAux (peaks : ℕ → ℕ) (d : ℤ) (pj : ℕ) : ℕ → ℕ → (ℕ → Bool) → (ℕ → Bool)
  | 0, _, keep => keep
  | c + 1, k, keep =>
    if (peaks k : ℤ) - pj < d then killRightAux peaks d pj c (k + 1) (setFalse keep k) else keep

/-- Processing loop of `_select_by_peak_distance`: peaks are visited in
decreasing priority order (the reversed argsort); a peak still kept kills
every neighbour closer than `d` on both sides. -/
def selectAux (peaks : ℕ → ℕ) (d : ℤ) (n : ℕ) : List ℕ → (ℕ → Bool) → (ℕ → Bool)
  | [], keep => keep
  | j :: rest, keep =>
    if keep j then
      selectAux peaks d n rest
        (killRightAux peaks d (peaks j) (n - (j + 1)) (j + 1)
          (killLeftAux peaks d (peaks j) j keep))
    else selectAux peaks d n rest keep

/-- The order `np.argsort(priority)` produces: ascending priority, equal
priorities by ascending position.  NumPy's default sort is introsort,
which on fewer than 17 elements (every realistic peak count here) runs
plain insertion sort and is therefore stable, which is exactly this
lexicographic order. -/
def leLex (prio : ℕ → ℚ) (a b : ℕ) : Prop :=
  prio a < prio b ∨ (prio a = prio b ∧ a ≤ b)

instance leLex.decidable (prio : ℕ → ℚ) : DecidableRel (leLex prio) := fun a b => by
  unfold leLex; infer_instance

/-- `np.argsort` over the priorities of `n` peaks. -/
def argsort (prio : ℕ → ℚ) (n : ℕ) : List ℕ :=
  List.insertionSort (leLex prio) (List.range n)

/-- SciPy `_select_by_peak_distance peaks priority distance`: the Boolean
keep-mask of the non-maximum suppression. -/
def selectByPeakDistance (peaks : ℕ → ℕ) (prio : ℕ → ℚ) (n : ℕ) (d : ℤ) : ℕ → Bool :=
  selectAux peaks d n (argsort prio n).reverse (fun _ => true)

/-- The candidate peaks of `find_peaks(x, height=h)`: local maxima passing
the height filter `h ≤ x[peak]`, ascending. -/
def peakCandidates (h : ℚ) (x : List ℚ) : List ℕ :=
  (localMaxima x).filter fun m => h ≤ x.getD m 0

/-- `scipy.signal.find_peaks(x, height=h, distance=d)` as called at
`audio_analysis.py` line 69 and `live_audio_analysis.py` line 114:
local maxima, filtered by `h ≤ x[peak]`, then distance-based suppression;
the surviving peaks are returned in ascending index order. -/
def findPeaks (h : ℚ) (d : ℤ) (x : List ℚ) : List ℕ :=
  let cands := peakCandidates h x
  let peaks := fun k => cands.getD k 0
  let prio := fun k => x.getD (peaks k) 0
  let keepF := selectByPeakDistance peaks prio cands.length d
  ((List.range cands.length).filter fun k => keepF k).map peaks

/-- A plateau-style local maximum as detected by SciPy `_local_maxima_1d`:
`m` is the midpoint of a maximal run `[l, r]` of equal values that is
strictly above its two neighbouring samples.  For a run of length one this
is an ordinary strict local maximum. -/
def IsPlateauPeak (x : List ℚ) (m : ℕ) : Prop :=
  ∃ l r, 1 ≤ l ∧ l ≤ r ∧ r + 1 < x.length ∧ m = (l + r) / 2 ∧
    x.getD (l - 1) 0 < x.getD l 0 ∧
    (∀ j, l ≤ j → j ≤ r → x.getD j 0 = x.getD l 0) ∧
    x.getD (r + 1) 0 < x.getD l 0

theorem plateauEndAux_ge (x : List ℚ) (v : ℚ) :
    ∀ c j, j ≤ plateauEndAux x v c j := by
  intro c
  induction c with
  | zero => intro j; exact le_refl j
  | succ c ih =>
    intro j
    rw [plateauEndAux]
    split
    · exact le_trans (Nat.le_succ j) (ih (j + 1))
    · exact le_refl j

theorem plateauEndAux_le (x : List ℚ) (v : ℚ) :
    ∀ c j, plateauEndAux x v c j ≤ j + c := by
  intro c
  induction c with
  | zero => intro j; exact Nat.le_of_eq rfl
  | succ c ih =>
    intro j
    rw [plateauEndAux]
    split
    · exact le_trans (ih (j + 1)) (by omega)
    · omega

theorem plateauEndAux_val (x : List ℚ) (v : ℚ) :
    ∀ c j t, j ≤ t → t < plateauEndAux x v c j → x.getD t 0 = v := by
  intro c
  induction c with
  | zero => intro j t h1 h2; rw [plateauEndAux] at h2; omega
  | succ c ih =>
    intro j t h1 h2
    rw [plateauEndAux] at h2
    by_cases hv : x.getD j 0 = v
    · rw [if_pos hv] at h2
      rcases Nat.eq_or_lt_of_le h1 with rfl | h1
      · exact hv
      · exact ih (j + 1) t h1 h2
    · rw [if_neg hv] at h2; omega

theorem plateauEnd_ge (x : List ℚ) (v : ℚ) (j : ℕ) : j ≤ plateauEnd x v j :=
  plateauEndAux_ge x v _ j

theorem plateauEnd_lt_length (x : List ℚ) (v : ℚ) (j : ℕ) (h : j < x.length) :
    plateauEnd x v j < x.length := by
  have := plateauEndAux_le x v (x.length - 1 - j) j
  rw [plateauEnd]
  omega

theorem plateauEnd_val (x : List ℚ) (v : ℚ) (j t : ℕ) (h1 : j ≤ t)
    (h2 : t < plateauEnd x v j) : x.getD t 0 = v :=
  plateauEndAux_val x v _ j t h1 h2

theorem localMaximaAux_ge (x : List ℚ) :
    ∀ fuel i, ∀ m ∈ localMaximaAux x fuel i, i ≤ m := by
  intro fuel
  induction fuel with
  | zero => intro i m hm; simp [localMaximaAux] at hm
  | succ fuel ih =>
    intro i m hm
    rw [localMaximaAux] at hm
    by_cases h1 : i + 1 < x.length
    · rw [if_pos h1] at hm
      by_cases h2 : x.getD (i - 1) 0 < x.getD i 0
      · rw [if_pos h2] at hm
        set a := plateauEnd x (x.getD i 0) (i + 1) with ha
        have hage : i + 1 ≤ a := plateauEnd_ge x _ (i + 1)
        by_cases h3 : x.getD a 0 < x.getD i 0
        · rw [if_pos h3] at hm
          rcases List.mem_cons.mp hm with rfl | hm
          · have : i * 2 ≤ i + (a - 1) := by omega
            exact (Nat.le_div_iff_mul_le (by norm_num)).mpr this
          · exact le_trans (by omega) (ih (a + 1) m hm)
        · rw [if_neg h3] at hm
          exact le_trans (Nat.le_succ i) (ih (i + 1) m hm)
      · rw [if_neg h2] at hm
        exact le_trans (Nat.le_succ i) (ih (i + 1) m hm)
    · rw [if_neg h1] at hm
      simp at hm

theorem localMaximaAux_sorted (x : List ℚ) :
    ∀ fuel i, List.Sorted (· < ·) (localMaximaAux x fuel i) := by
  intro fuel
  induction fuel with
  | zero => intro i; simp [localMaximaAux]
  | succ fuel ih =>
    intro i
    rw [localMaximaAux]
    by_cases h1 : i + 1 < x.length
    · rw [if_pos h1]
      by_cases h2 : x.getD (i - 1) 0 < x.getD i 0
      · rw [if_pos h2]
        set a := plateauEnd x (x.getD i 0) (i + 1) with ha
        have hage : i + 1 ≤ a := plateauEnd_ge x _ (i + 1)
        by_cases h3 : x.getD a 0 < x.getD i 0
        · rw [if_pos h3]
          refine List.sorted_cons.mpr ⟨?_, ih (a + 1)⟩
          intro b hb
          have hb2 : a + 1 ≤ b := localMaximaAux_ge x fuel (a + 1) b hb
          have : (i + (a - 1)) / 2 ≤ a - 1 := by
            refine Nat.div_le_of_le_mul ?_
            omega
          omega
        · rw [if_neg h3]; exact ih (i + 1)
      · rw [if_neg h2]; exact ih (i + 1)
    · rw [if_neg h1]; simp

theorem localMaximaAux_plateau (x : List ℚ) :
    ∀ fuel i, 1 ≤ i → ∀ m ∈ localMaximaAux x fuel i, IsPlateauPeak x m := by
  intro fuel
  induction fuel with
  | zero => intro i _ m hm; simp [localMaximaAux] at hm
  | succ fuel ih =>
    intro i hi m hm
    rw [localMaximaAux] at hm
    by_cases h1 : i + 1 < x.length
    · rw [if_pos h1] at hm
      by_cases h2 : x.getD (i - 1) 0 < x.getD i 0
      · rw [if_pos h2] at hm
        set a := plateauEnd x (x.getD i 0) (i + 1) with ha
        have hage : i + 1 ≤ a := plateauEnd_ge x _ (i + 1)
        have halt : a < x.length := plateauEnd_lt_length x _ (i + 1) h1
        by_cases h3 : x.getD a 0 < x.getD i 0
        · rw [if_pos h3] at hm
          rcases List.mem_cons.mp hm with rfl | hm
          · refine ⟨i, a - 1, hi, by omega, by omega, by omega, h2, ?_, ?_⟩
            · intro j hj1 hj2
              rcases Nat.eq_or_lt_of_le hj1 with rfl | hj3
              · rfl
              · exact plateauEnd_val x _ (i + 1) j hj3 (by omega)
            · have : a - 1 + 1 = a := by omega
              rw [this]; exact h3
          · exact ih (a + 1) (by omega) m hm
        · rw [if_neg h3] at hm
          exact ih (i + 1) (by omega) m hm
      · rw [if_neg h2] at hm
        exact ih (i + 1) (by omega) m hm
    · rw [if_neg h1] at hm
      simp at hm

theorem localMaximaAux_const_zero (x : List ℚ) (hz : ∀ v ∈ x, v = 0) :
    ∀ fuel i, localMaximaAux x fuel i = [] := by
  have hg : ∀ t, x.getD t 0 = 0 := by
    intro t
    by_cases ht : t < x.length
    · rw [getD_of_lt _ _ ht]
      exact hz _ (List.getElem_mem ht)
    · rw [List.getD_eq_getElem?_getD, List.getElem?_eq_none (by omega), Option.getD_none]
  intro fuel
  induction fuel with
  | zero => intro i; rfl
  | succ fuel ih =>
    intro i
    rw [localMaximaAux]
    by_cases h1 : i + 1 < x.length
    · rw [if_pos h1]
      have : ¬ x.getD (i - 1) 0 < x.getD i 0 := by rw [hg, hg]; exact lt_irrefl 0
      rw [if_neg this]
      exact ih (i + 1)
    · rw [if_neg h1]

/-- A peak index that survives suppression together with the fact that all
its conflicting neighbours are cleared. -/
def SProp (peaks : ℕ → ℕ) (n : ℕ) (d : ℤ) (keep : ℕ → Bool) (m : ℕ) : Prop :=
  keep m = true ∧
    ∀ k, k < n → k ≠ m → |(peaks k : ℤ) - peaks m| < d → keep k = false

/-- Peak `p` beats peak `k` in the suppression: they conflict on distance
and `p` wins on priority, ties broken towards the larger index (the later
peak), which is the order the stable argsort induces. -/
def Dominates (peaks : ℕ → ℕ) (prio : ℕ → ℚ) (d : ℤ) (p k : ℕ) : Prop :=
  |(peaks p : ℤ) - peaks k| < d ∧
    (prio k < prio p ∨ (prio k = prio p ∧ k < p))

theorem killLeftAux_high (peaks : ℕ → ℕ) (d : ℤ) (pj : ℕ) :
    ∀ kk keep m, kk ≤ m → killLeftAux peaks d pj kk keep m = keep m := by
  intro kk
  induction kk with
  | zero => intro keep m _; rfl
  | succ kk ih =>
    intro keep m hm
    rw [killLeftAux]
    split
    · rw [ih _ m (by omega), setFalse, if_neg (by omega)]
    · rfl

theorem killLeftAux_false (peaks : ℕ → ℕ) (d : ℤ) (pj : ℕ) :
    ∀ kk keep m, keep m = false → killLeftAux peaks d pj kk keep m = false := by
  intro kk
  induction kk with
  | zero => intro keep m h; exact h
  | succ kk ih =>
    intro keep m h
    rw [killLeftAux]
    split
    · refine ih _ m ?_
      rw [setFalse]
      split <;> simp [h]
    · exact h

theorem killLeftAux_true (peaks : ℕ → ℕ) (d : ℤ) (pj : ℕ) :
    ∀ kk keep m, killLeftAux peaks d pj kk keep m = true → keep m = true := by
  intro kk
  induction kk with
  | zero => intro keep m h; exact h
  | succ kk ih =>
    intro keep m h
    rw [killLeftAux] at h
    by_cases hc : (pj : ℤ) - peaks kk < d
    · rw [if_pos hc] at h
      have h2 := ih _ m h
      rw [setFalse] at h2
      by_cases hmk : m = kk
      · rw [if_pos hmk] at h2; exact absurd h2 (by simp)
      · rwa [if_neg hmk] at h2
    · rwa [if_neg hc] at h

theorem killLeftAux_kills (peaks : ℕ → ℕ) (d : ℤ) (pj : ℕ) :
    ∀ kk keep m, m < kk → (∀ p q, p ≤ q → q < kk → peaks p ≤ peaks q) →
      (pj : ℤ) - peaks m < d → killLeftAux peaks d pj kk keep m = false := by
  intro kk
  induction kk with
  | zero => intro keep m hm _ _; omega
  | succ kk ih =>
    intro keep m hm hmono hd
    rw [killLeftAux]
    have hcond : (pj : ℤ) - peaks kk < d := by
      have : peaks m ≤ peaks kk := hmono m kk (by omega) (by omega)
      omega
    rw [if_pos hcond]
    by_cases hmk : m = kk
    · refine killLeftAux_false peaks d pj kk _ m ?_
      rw [setFalse, if_pos hmk]
    · exact ih _ m (by omega) (fun p q h1 h2 => hmono p q h1 (by omega)) hd

theorem killLeftAux_far (peaks : ℕ → ℕ) (d : ℤ) (pj : ℕ) :
    ∀ kk keep m, d ≤ (pj : ℤ) - peaks m →
      killLeftAux peaks d pj kk keep m = keep m := by
  intro kk
  induction kk with
  | zero => intro keep m _; rfl
  | succ kk ih =>
    intro keep m hd
    rw [killLeftAux]
    split
    · have hmk : m ≠ kk := by
        intro h
        subst h
        omega
      rw [ih _ m hd, setFalse, if_neg hmk]
    · rfl

theorem killRightAux_low (peaks : ℕ → ℕ) (d : ℤ) (pj : ℕ) :
    ∀ c k keep m, m < k → killRightAux peaks d pj c k keep m = keep m := by
  intro c
  induction c with
  | zero => intro k keep m _; rfl
  | succ c ih =>
    intro k keep m hm
    rw [killRightAux]
    split
    · rw [ih _ _ m (by omega), setFalse, if_neg (by omega)]
    · rfl

theorem killRightAux_false (peaks : ℕ → ℕ) (d : ℤ) (pj : ℕ) :
    ∀ c k keep m, keep m = false → killRightAux peaks d pj c k keep m = false := by
  intro c
  induction c with
  | zero => intro k keep m h; exact h
  | succ c ih =>
    intro k keep m h
    rw [killRightAux]
    split
    · refine ih _ _ m ?_
      rw [setFalse]
      split <;> simp [h]
    · exact h

theorem killRightAux_true (peaks : ℕ → ℕ) (d : ℤ) (pj : ℕ) :
    ∀ c k keep m, killRightAux peaks d pj c k keep m = true → keep m = true := by
  intro c
  induction c with
  | zero => intro k keep m h; exact h
  | succ c ih =>
    intro k keep m h
    rw [killRightAux] at h
    by_cases hc : (peaks k : ℤ) - pj < d
    · rw [if_pos hc] at h
      have h2 := ih _ _ m h
      rw [setFalse] at h2
      by_cases hmk : m = k
      · rw [if_pos hmk] at h2; exact absurd h2 (by simp)
      · rwa [if_neg hmk] at h2
    · rwa [if_neg hc] at h

theorem killRightAux_kills (peaks : ℕ → ℕ) (d : ℤ) (pj : ℕ) :
    ∀ c k keep m, k ≤ m → m < k + c →
      (∀ p q, k ≤ p → p ≤ q → q < k + c → peaks p ≤ peaks q) →
      (peaks m : ℤ) - pj < d → killRightAux peaks d pj c k keep m = false := by
  intro c
  induction c with
  | zero => intro k keep m h1 h2 _ _; omega
  | succ c ih =>
    intro k keep m h1 h2 hmono hd
    rw [killRightAux]
    have hcond : (peaks k : ℤ) - pj < d := by
      have : peaks k ≤ peaks m := hmono k m (le_refl k) h1 h2
      omega
    rw [if_pos hcond]
    by_cases hmk : m = k
    · refine killRightAux_false peaks d pj c (k + 1) _ m ?_
      rw [setFalse, if_pos hmk]
    · exact ih (k + 1) _ m (by omega) (by omega)
        (fun p q hp hq hq2 => hmono p q (by omega) hq (by omega)) hd

theorem killRightAux_far (peaks : ℕ → ℕ) (d : ℤ) (pj : ℕ) :
    ∀ c k keep m, d ≤ (peaks m : ℤ) - pj →
      killRightAux peaks d pj c k keep m = keep m := by
  intro c
  induction c with
  | zero => intro k keep m _; rfl
  | succ c ih =>
    intro k keep m hd
    rw [killRightAux]
    split
    · have hmk : m ≠ k := by
        intro h
        subst h
        omega
      rw [ih _ _ m hd, setFalse, if_neg hmk]
    · rfl

/-- The combined kill pass a surviving peak `j` performs. -/
def killsAround (peaks : ℕ → ℕ) (d : ℤ) (n j : ℕ) (keep : ℕ → Bool) : ℕ → Bool :=
  killRightAux peaks d (peaks j) (n - (j + 1)) (j + 1) (killLeftAux peaks d (peaks j) j keep)

theorem selectAux_cons_true (peaks : ℕ → ℕ) (d : ℤ) (n : ℕ) (j : ℕ) (rest : List ℕ)
    (keep : ℕ → Bool) (h : keep j = true) :
    selectAux peaks d n (j :: rest) keep =
      selectAux peaks d n rest (killsAround peaks d n j keep) := by
  rw [selectAux, if_pos h]
  rfl

theorem selectAux_cons_false (peaks : ℕ → ℕ) (d : ℤ) (n : ℕ) (j : ℕ) (rest : List ℕ)
    (keep : ℕ → Bool) (h : keep j = false) :
    selectAux peaks d n (j :: rest) keep = selectAux peaks d n rest keep := by
  rw [selectAux, if_neg (by simp [h])]

theorem killsAround_false (peaks : ℕ → ℕ) (d : ℤ) (n j : ℕ) (keep : ℕ → Bool) (m : ℕ)
    (h : keep m = false) : killsAround peaks d n j keep m = false :=
  killRightAux_false peaks d _ _ _ _ m (killLeftAux_false peaks d _ _ _ m h)

theorem killsAround_true (peaks : ℕ → ℕ) (d : ℤ) (n j : ℕ) (keep : ℕ → Bool) (m : ℕ)
    (h : killsAround peaks d n j keep m = true) : keep m = true :=
  killLeftAux_true peaks d _ _ _ m (killRightAux_true peaks d _ _ _ _ m h)

theorem killsAround_self (peaks : ℕ → ℕ) (d : ℤ) (n j : ℕ) (keep : ℕ → Bool)
    (h : keep j = true) : killsAround peaks d n j keep j = true := by
  rw [killsAround, killRightAux_low peaks d _ _ _ _ j (by omega),
    killLeftAux_high peaks d _ _ _ j (le_refl j)]
  exact h

theorem killsAround_sprop (peaks : ℕ → ℕ) (d : ℤ) (n j : ℕ) (keep : ℕ → Bool)
    (hasc : ∀ p q, p < q → q < n → peaks p < peaks q)
    (hj : j < n) (h : keep j = true) :
    SProp peaks n d (killsAround peaks d n j keep) j := by
  refine ⟨killsAround_self peaks d n j keep h, ?_⟩
  intro k hk hkj hdist
  by_cases hlt : k < j
  · have hpk : peaks k < peaks j := hasc k j hlt hj
    have hd2 : (peaks j : ℤ) - peaks k < d := by
      rw [abs_sub_lt_iff] at hdist
      omega
    rw [killsAround]
    refine killRightAux_false peaks d _ _ _ _ k ?_
    refine killLeftAux_kills peaks d _ j keep k hlt ?_ hd2
    intro p q hpq hq
    rcases Nat.eq_or_lt_of_le hpq with rfl | hpq2
    · exact le_refl _
    · exact le_of_lt (hasc p q hpq2 (by omega))
  · have hgt : j < k := by omega
    have hpk : peaks j < peaks k := hasc j k hgt hk
    have hd2 : (peaks k : ℤ) - peaks j < d := by
      rw [abs_sub_lt_iff] at hdist
      omega
    rw [killsAround]
    refine killRightAux_kills peaks d _ _ _ _ k hgt (by omega) ?_ hd2
    intro p q hp hpq hq
    rcases Nat.eq_or_lt_of_le hpq with rfl | hpq2
    · exact le_refl _
    · exact le_of_lt (hasc p q hpq2 (by omega))

theorem killsAround_sstep (peaks : ℕ → ℕ) (d : ℤ) (n j : ℕ) (keep : ℕ → Bool)
    (hasc : ∀ p q, p < q → q < n → peaks p < peaks q)
    (hj : j < n) (hkj : keep j = true) (m : ℕ) (hm : m < n) (hmj : m ≠ j)
    (hs : SProp peaks n d keep m) :
    SProp peaks n d (killsAround peaks d n j keep) m := by
  have hfar : d ≤ |(peaks j : ℤ) - peaks m| := by
    by_contra hcon
    have := hs.2 j hj (fun h => hmj h.symm) (by omega)
    rw [this] at hkj
    exact absurd hkj (by simp)
  constructor
  · by_cases hlt : m < j
    · have hpk : peaks m < peaks j := hasc m j hlt hj
      have hd2 : d ≤ (peaks j : ℤ) - peaks m := by
        rw [abs_of_pos (by omega : (0:ℤ) < (peaks j : ℤ) - peaks m)] at hfar
        omega
      rw [killsAround, killRightAux_low peaks d _ _ _ _ m (by omega),
        killLeftAux_far peaks d _ _ _ m hd2]
      exact hs.1
    · have hgt : j < m := by omega
      have hpk : peaks j < peaks m := hasc j m hgt hm
      have hd2 : d ≤ (peaks m : ℤ) - peaks j := by
        rw [abs_of_neg (by omega : (peaks j : ℤ) - peaks m < 0)] at hfar
        omega
      rw [killsAround, killRightAux_far peaks d _ _ _ _ m hd2,
        killLeftAux_high peaks d _ _ _ m (by omega)]
      exact hs.1
  · intro k hk hkm hdist
    exact killsAround_false peaks d n j keep k (hs.2 k hk hkm hdist)

theorem selectAux_keeps_false (peaks : ℕ → ℕ) (d : ℤ) (n : ℕ) :
    ∀ (order : List ℕ) (keep : ℕ → Bool) (m : ℕ), keep m = false →
      selectAux peaks d n order keep m = false := by
  intro order
  induction order with
  | nil => intro keep m h; exact h
  | cons j rest ih =>
    intro keep m h
    by_cases hj : keep j = true
    · rw [selectAux_cons_true peaks d n j rest keep hj]
      exact ih _ m (killsAround_false peaks d n j keep m h)
    · rw [selectAux_cons_false peaks d n j rest keep (by simpa using hj)]
      exact ih _ m h

theorem selectAux_keeps_true (peaks : ℕ → ℕ) (d : ℤ) (n : ℕ) :
    ∀ (order : List ℕ) (keep : ℕ → Bool) (m : ℕ),
      selectAux peaks d n order keep m = true → keep m = true := by
  intro order
  induction order with
  | nil => intro keep m h; exact h
  | cons j rest ih =>
    intro keep m h
    by_cases hj : keep j = true
    · rw [selectAux_cons_true peaks d n j rest keep hj] at h
      exact killsAround_true peaks d n j keep m (ih _ m h)
    · rw [selectAux_cons_false peaks d n j rest keep (by simpa using hj)] at h
      exact ih _ m h

theorem killsAround_far (peaks : ℕ → ℕ) (d : ℤ) (n j : ℕ) (keep : ℕ → Bool)
    (hasc : ∀ p q, p < q → q < n → peaks p < peaks q)
    (hj : j < n) (m : ℕ) (hm : m < n) (hmj : m ≠ j)
    (hfar : d ≤ |(peaks j : ℤ) - peaks m|) :
    killsAround peaks d n j keep m = keep m := by
  by_cases hlt : m < j
  · have hpk : peaks m < peaks j := hasc m j hlt hj
    have hd2 : d ≤ (peaks j : ℤ) - peaks m := by
      rw [abs_of_pos (by omega : (0:ℤ) < (peaks j : ℤ) - peaks m)] at hfar
      omega
    rw [killsAround, killRightAux_low peaks d _ _ _ _ m (by omega),
      killLeftAux_far peaks d _ _ _ m hd2]
  · have hgt : j < m := by omega
    have hpk : peaks j < peaks m := hasc j m hgt hm
    have hd2 : d ≤ (peaks m : ℤ) - peaks j := by
      rw [abs_of_neg (by omega : (peaks j : ℤ) - peaks m < 0)] at hfar
      omega
    rw [killsAround, killRightAux_far peaks d _ _ _ _ m hd2,
      killLeftAux_high peaks d _ _ _ m (by omega)]

theorem selectAux_main (peaks : ℕ → ℕ) (prio : ℕ → ℚ) (n : ℕ) (d : ℤ)
    (hasc : ∀ p q, p < q → q < n → peaks p < peaks q) :
    ∀ (order : List ℕ) (keep : ℕ → Bool),
      List.Pairwise (fun a b => prio b < prio a ∨ (prio b = prio a ∧ b < a)) order →
      (∀ j ∈ order, j < n) →
      (∀ m, m < n → m ∉ order → keep m = true → SProp peaks n d keep m) →
      (∀ m, m < n → keep m = false →
        ∃ p, p < n ∧ SProp peaks n d keep p ∧ Dominates peaks prio d p m) →
      (∀ m, m < n → selectAux peaks d n order keep m = true →
        SProp peaks n d (selectAux peaks d n order keep) m) ∧
      (∀ m, m < n → selectAux peaks d n order keep m = false →
        ∃ p, p < n ∧ selectAux peaks d n order keep p = true ∧
          Dominates peaks prio d p m) := by
  intro order
  induction order with
  | nil =>
    intro keep _ _ hB hC
    refine ⟨fun m hm hkm => hB m hm (by simp) hkm, fun m hm hkm => ?_⟩
    obtain ⟨p, hp1, hp2, hp3⟩ := hC m hm hkm
    exact ⟨p, hp1, hp2.1, hp3⟩
  | cons j rest ih =>
    intro keep hsort hmem hB hC
    have hjn : j < n := hmem j (List.mem_cons_self j rest)
    by_cases hkj : keep j = true
    · rw [selectAux_cons_true peaks d n j rest keep hkj]
      refine ih (killsAround peaks d n j keep) (List.Pairwise.of_cons hsort)
        (fun a ha => hmem a (List.mem_cons_of_mem j ha)) ?_ ?_
      · intro m hm hmrest hkm2
        by_cases hmj : m = j
        · subst hmj
          exact killsAround_sprop peaks d n m keep hasc hm hkj
        · have hmnotin : m ∉ j :: rest := by simp [hmj, hmrest]
          have hkm : keep m = true := killsAround_true peaks d n j keep m hkm2
          exact killsAround_sstep peaks d n j keep hasc hjn hkj m hm hmj
            (hB m hm hmnotin hkm)
      · intro m hm hkm2
        by_cases hkm : keep m = true
        · have hmj : m ≠ j := by
            intro h
            subst h
            rw [killsAround_self peaks d n m keep hkj] at hkm2
            exact absurd hkm2 (by simp)
          have hdist : |(peaks j : ℤ) - peaks m| < d := by
            by_contra hcon
            rw [killsAround_far peaks d n j keep hasc hjn m hm hmj (by omega),
              hkm] at hkm2
            exact absurd hkm2 (by simp)
          have hmrest : m ∈ rest := by
            by_contra hmr
            have hmnotin : m ∉ j :: rest := by simp [hmj, hmr]
            have hsm := hB m hm hmnotin hkm
            have := hsm.2 j hjn (fun h => hmj h.symm) hdist
            rw [this] at hkj
            exact absurd hkj (by simp)
          have hlex := (List.pairwise_cons.mp hsort).1 m hmrest
          exact ⟨j, hjn, killsAround_sprop peaks d n j keep hasc hjn hkj,
            hdist, hlex⟩
        · obtain ⟨p, hp1, hp2, hp3⟩ := hC m hm (by simpa using hkm)
          by_cases hpj : p = j
          · subst hpj
            exact ⟨p, hp1, killsAround_sprop peaks d n p keep hasc hp1 hkj, hp3⟩
          · exact ⟨p, hp1,
              killsAround_sstep peaks d n j keep hasc hjn hkj p hp1 hpj hp2, hp3⟩
    · rw [selectAux_cons_false peaks d n j rest keep (by simpa using hkj)]
      refine ih keep (List.Pairwise.of_cons hsort)
        (fun a ha => hmem a (List.mem_cons_of_mem j ha)) ?_ hC
      intro m hm hmrest hkm
      by_cases hmj : m = j
      · subst hmj
        exact absurd hkm hkj
      · exact hB m hm (by simp [hmj, hmrest]) hkm

instance leLex.total (prio : ℕ → ℚ) : IsTotal ℕ (leLex prio) := by
  refine ⟨fun a b => ?_⟩
  unfold leLex
  rcases lt_trichotomy (prio a) (prio b) with h | h | h
  · exact Or.inl (Or.inl h)
  · rcases le_total a b with h2 | h2
    · exact Or.inl (Or.inr ⟨h, h2⟩)
    · exact Or.inr (Or.inr ⟨h.symm, h2⟩)
  · exact Or.inr (Or.inl h)

instance leLex.trans (prio : ℕ → ℚ) : IsTrans ℕ (leLex prio) := by
  refine ⟨fun a b c hab hbc => ?_⟩
  unfold leLex at hab hbc ⊢
  rcases hab with h1 | ⟨h1, h1b⟩
  · rcases hbc with h2 | ⟨h2, h2b⟩
    · exact Or.inl (h1.trans h2)
    · exact Or.inl (h2 ▸ h1)
  · rcases hbc with h2 | ⟨h2, h2b⟩
    · exact Or.inl (h1 ▸ h2)
    · exact Or.inr ⟨h1.trans h2, h1b.trans h2b⟩

theorem argsort_perm (prio : ℕ → ℚ) (n : ℕ) : (argsort prio n).Perm (List.range n) :=
  List.perm_insertionSort _ _

theorem argsort_mem (prio : ℕ → ℚ) (n : ℕ) (j : ℕ) : j ∈ argsort prio n ↔ j < n := by
  rw [(argsort_perm prio n).mem_iff, List.mem_range]

theorem argsort_rev_pairwise (prio : ℕ → ℚ) (n : ℕ) :
    List.Pairwise (fun a b => prio b < prio a ∨ (prio b = prio a ∧ b < a))
      (argsort prio n).reverse := by
  have hsorted : List.Sorted (leLex prio) (argsort prio n) :=
    List.sorted_insertionSort (leLex prio) (List.range n)
  have hnd : (argsort prio n).Nodup :=
    ((argsort_perm prio n).nodup_iff).mpr (List.nodup_range n)
  have h1 : List.Pairwise (fun a b => leLex prio b a) (argsort prio n).reverse :=
    List.pairwise_reverse.mpr hsorted
  have h2 : List.Pairwise (fun a b : ℕ => a ≠ b) (argsort prio n).reverse :=
    List.nodup_reverse.mpr hnd
  refine (h1.and h2).imp ?_
  rintro a b ⟨hle, hne⟩
  rcases hle with h | ⟨h, h3⟩
  · exact Or.inl h
  · exact Or.inr ⟨h, by omega⟩

theorem selectByPeakDistance_spec (peaks : ℕ → ℕ) (prio : ℕ → ℚ) (n : ℕ) (d : ℤ)
    (hasc : ∀ p q, p < q → q < n → peaks p < peaks q) :
    (∀ m, m < n → selectByPeakDistance peaks prio n d m = true →
      SProp peaks n d (selectByPeakDistance peaks prio n d) m) ∧
    (∀ m, m < n → selectByPeakDistance peaks prio n d m = false →
      ∃ p, p < n ∧ selectByPeakDistance peaks prio n d p = true ∧
        Dominates peaks prio d p m) := by
  unfold selectByPeakDistance
  refine selectAux_main peaks prio n d hasc _ _ (argsort_rev_pairwise prio n)
    (fun j hj => (argsort_mem prio n j).mp (List.mem_reverse.mp hj)) ?_ ?_
  · intro m hm hnotin _
    exact absurd (List.mem_reverse.mpr ((argsort_mem prio n m).mpr hm)) hnotin
  · intro m _ hfalse
    exact absurd hfalse (by simp)

/-- C1 (amended): for every energy envelope, the peak picker
(`find_peaks` with `minHeight = 0.2`, `minDistance = 5`) returns an
ascending list of plateau local maxima (midpoints of maximal runs of equal
values strictly above their surroundings; strict local maxima in the
common case of runs of length one), each with value at least 0.2 and no
two returned peaks closer than 5 frames; when multiple candidates would
violate the spacing, the one with higher energy is retained: every
discarded candidate lies within 5 frames of a returned peak of strictly
higher energy — or of exactly equal energy and larger frame index, i.e.
on exactly equal energy the later (higher-index) peak is preferred. -/
theorem peak_picker_spec (x : List ℚ) :
    List.Sorted (· < ·) (findPeaks 0.2 5 x) ∧
    (∀ p ∈ findPeaks 0.2 5 x, (0.2 : ℚ) ≤ x.getD p 0) ∧
    (∀ p ∈ findPeaks 0.2 5 x, IsPlateauPeak x p) ∧
    List.Pairwise (fun p q => p + 5 ≤ q) (findPeaks 0.2 5 x) ∧
    (∀ c ∈ peakCandidates 0.2 x, c ∉ findPeaks 0.2 5 x →
      ∃ p ∈ findPeaks 0.2 5 x, ((p : ℤ) - c).natAbs < 5 ∧
        (x.getD c 0 < x.getD p 0 ∨ (x.getD c 0 = x.getD p 0 ∧ c < p))) := by
  have hsorted : List.Sorted (· < ·) (peakCandidates (0.2 : ℚ) x) :=
    List.Pairwise.filter _ (localMaximaAux_sorted x x.length 1)
  set cands := peakCandidates (0.2 : ℚ) x with hcands
  set n := cands.length with hn
  set peaks : ℕ → ℕ := fun k => cands.getD k 0 with hpeaks
  set prio : ℕ → ℚ := fun k => x.getD (peaks k) 0 with hprio
  set keepF : ℕ → Bool := selectByPeakDistance peaks prio n 5 with hkeepF
  have hasc : ∀ p q, p < q → q < n → peaks p < peaks q := by
    intro p q hpq hq
    have hp : p < n := lt_trans hpq hq
    show cands.getD p 0 < cands.getD q 0
    rw [getD_of_lt _ _ hp, getD_of_lt _ _ hq]
    exact List.pairwise_iff_getElem.mp hsorted p q hp hq hpq
  have hspec := selectByPeakDistance_spec peaks prio n 5 hasc
  have hfp : findPeaks 0.2 5 x = ((List.range n).filter fun k => keepF k).map peaks := rfl
  have hmem : ∀ p, p ∈ findPeaks 0.2 5 x ↔
      ∃ k, k < n ∧ keepF k = true ∧ peaks k = p := by
    intro p
    rw [hfp, List.mem_map]
    constructor
    · rintro ⟨k, hk, rfl⟩
      have h2 := List.mem_filter.mp hk
      exact ⟨k, List.mem_range.mp h2.1, by simpa using h2.2, rfl⟩
    · rintro ⟨k, hk1, hk2, rfl⟩
      exact ⟨k, List.mem_filter.mpr ⟨List.mem_range.mpr hk1, by simpa using hk2⟩, rfl⟩
  have hcand_of_mem : ∀ p ∈ findPeaks 0.2 5 x, p ∈ cands := by
    intro p hp
    obtain ⟨k, hk, _, rfl⟩ := (hmem _).mp hp
    show cands.getD k 0 ∈ cands
    rw [getD_of_lt _ _ hk]
    exact List.getElem_mem hk
  have hfilterlt : List.Pairwise (· < ·) ((List.range n).filter fun k => keepF k) :=
    List.Pairwise.filter _ (List.pairwise_lt_range n)
  have hfiltermem : ∀ a ∈ (List.range n).filter (fun k => keepF k), a < n := by
    intro a ha
    exact List.mem_range.mp (List.mem_filter.mp ha).1
  refine ⟨?_, ?_, ?_, ?_, ?_⟩
  · rw [hfp, List.Sorted, List.pairwise_map]
    refine List.Pairwise.imp_of_mem ?_ hfilterlt
    intro a b ha hb hab
    exact hasc a b hab (hfiltermem b hb)
  · intro p hp
    have hc := hcand_of_mem p hp
    have h2 := (List.mem_filter.mp hc).2
    exact of_decide_eq_true h2
  · intro p hp
    have hc := hcand_of_mem p hp
    exact localMaximaAux_plateau x x.length 1 (le_refl 1) p (List.mem_filter.mp hc).1
  · rw [hfp, List.pairwise_map]
    refine List.Pairwise.imp_of_mem ?_ hfilterlt
    intro a b ha hb hab
    have han : a < n := hfiltermem a ha
    have hbn : b < n := hfiltermem b hb
    have hka : keepF a = true := by simpa using (List.mem_filter.mp ha).2
    have hkb : keepF b = true := by simpa using (List.mem_filter.mp hb).2
    have hsb := hspec.1 b hbn hkb
    by_contra hcon
    push_neg at hcon
    have hlt : peaks a < peaks b := hasc a b hab hbn
    have hdist : |(peaks a : ℤ) - peaks b| < 5 := by
      rw [abs_lt]
      constructor <;> omega
    have hfalse := hsb.2 a han (by omega) hdist
    rw [hkeepF] at hka
    rw [hfalse] at hka
    exact absurd hka (by simp)
  · intro c hc hcnot
    obtain ⟨⟨kc, hkc⟩, hgetc⟩ := List.mem_iff_get.mp hc
    have hpkc : peaks kc = c := by
      show cands.getD kc 0 = c
      rw [getD_of_lt _ _ hkc]
      rw [← hgetc]
      rfl
    have hkcf : keepF kc = false := by
      by_contra htr
      have hmem2 : peaks kc ∈ findPeaks 0.2 5 x :=
        (hmem _).mpr ⟨kc, hkc, by simpa using htr, rfl⟩
      rw [hpkc] at hmem2
      exact hcnot hmem2
    obtain ⟨pidx, hp1, hp2, hp3⟩ := hspec.2 kc hkc hkcf
    refine ⟨peaks pidx, (hmem _).mpr ⟨pidx, hp1, hp2, rfl⟩, ?_, ?_⟩
    · have hdist := hp3.1
      rw [hpkc] at hdist
      rw [Int.abs_eq_natAbs] at hdist
      omega
    · have hlex := hp3.2
      have hpc : prio kc = x.getD c 0 := by
        show x.getD (peaks kc) 0 = x.getD c 0
        rw [hpkc]
      have hpp : prio pidx = x.getD (peaks pidx) 0 := rfl
      rcases hlex with h2 | ⟨h2a, h2b⟩
      · left
        rw [← hpc, ← hpp]
        exact h2
      · right
        refine ⟨by rw [← hpc, ← hpp]; exact h2a, ?_⟩
        have := hasc kc pidx h2b hp1
        omega

/-- C1 counterexample: on the normalized envelope `[0, 1, 0, 1, 0]` the two
candidate peaks at frames 1 and 3 have exactly equal energy and are closer
than 5 frames, and `find_peaks` keeps frame 3 — the later peak, not the
earlier one the claim requires.  On `[0, 1, 1, 0]` the returned peak 1 sits
on a two-sample plateau and is not a strict local maximum (its right
neighbour is equal, not smaller). -/
theorem peak_picker_counterexample :
    findPeaks 0.2 5 [0, 1, 0, 1, 0] = [3] ∧
    findPeaks 0.2 5 [0, 1, 1, 0] = [1] ∧
    ¬ ([(0 : ℚ), 1, 1, 0].getD 2 0 < [(0 : ℚ), 1, 1, 0].getD 1 0) := by
  refine ⟨?_, ?_, ?_⟩ <;> with_unfolding_all decide

/-- Witness for C1: on `[0, 1, 0, 1, 0]` the discarded equal-energy
candidate at frame 1 is dominated by the returned later peak at frame 3. -/
theorem peak_picker_spec_witness :
    ∃ p ∈ findPeaks 0.2 5 [(0 : ℚ), 1, 0, 1, 0], ((p : ℤ) - 1).natAbs < 5 ∧
      ([(0 : ℚ), 1, 0, 1, 0].getD 1 0 < [(0 : ℚ), 1, 0, 1, 0].getD p 0 ∨
        ([(0 : ℚ), 1, 0, 1, 0].getD 1 0 = [(0 : ℚ), 1, 0, 1, 0].getD p 0 ∧ 1 < p)) :=
  (peak_picker_spec [0, 1, 0, 1, 0]).2.2.2.2 1 (by with_unfolding_all decide)
    (by with_unfolding_all decide)

/-- Basic Feature Aligner, `audio_analysis.py` line 89:
`spectral_centroids[min(peak, len(spectral_centroids) - 1)]`.  On an empty
feature array, Python computes `min(peak, -1) = -1` and indexing an empty
array raises `IndexError`. -/
def alignFreqBasic (peak : ℕ) (cents : List ℚ) : Except String ℚ :=
  match cents with
  | [] => .error "index -1 is out of bounds for axis 0 with size 0"
  | _ :: _ => .ok (cents.getD (min peak (cents.length - 1)) 0)

/-- Extended Feature Aligner, `live_audio_analysis.py` lines 147-150:
`frame_idx = min(peak, len(spectral_centroids) - 1)`; centroid and rolloff
are both read at `frame_idx` — the rolloff read raises when `frame_idx` is
out of range for the rolloff array — while the zero-crossing rate is
guarded: `zcr[frame_idx] if frame_idx < len(zcr) else 0`. -/
def alignFeatures (peak : ℕ) (cents rolls zcrs : List ℚ) :
    Except String (ℚ × ℚ × ℚ) :=
  match cents with
  | [] => .error "index -1 is out of bounds for axis 0 with size 0"
  | _ :: _ =>
    let frameIdx := min peak (cents.length - 1)
    if frameIdx < rolls.length then
      .ok (cents.getD frameIdx 0, rolls.getD frameIdx 0,
        if frameIdx < zcrs.length then zcrs.getD frameIdx 0 else 0)
    else .error "index out of bounds for axis 0"

/-- A Basic sound-event record, `audio_analysis.py` lines 102-108, with the
rounding applied there. -/
structure BasicEvent where
  time : ℚ
  frequency : ℚ
  amplitude : ℚ
  type : String
  decibels : Db
deriving DecidableEq, Repr

/-- A Live sound-event record, `live_audio_analysis.py` lines 172-181. -/
structure LiveEvent where
  time : ℚ
  frequency : ℚ
  amplitude : ℚ
  type : String
  confidence : ℚ
  decibels : Db
  rolloff : ℚ
  zcr : ℚ
deriving DecidableEq, Repr

/-- The Basic event loop, `audio_analysis.py` lines 86-108: one record per
peak, in peak order. -/
def buildEventsBasic (log10 : ℚ → ℚ) (hop sr : ℕ) (energy cents : List ℚ) :
    List ℕ → Except String (List BasicEvent)
  | [] => .ok []
  | p :: rest => do
    let freqAtPeak ← alignFreqBasic p cents
    let amplitude := energy.getD p 0
    let evs ← buildEventsBasic log10 hop sr energy cents rest
    .ok ({ time := rnd 2 ((p * hop : ℕ) / (sr : ℚ))
           frequency := rnd 1 freqAtPeak
           amplitude := rnd 3 amplitude
           type := classifyBasic freqAtPeak
           decibels := Db.round 1 (dbOf log10 amplitude) } :: evs)

/-- The Live event loop, `live_audio_analysis.py` lines 142-181. -/
def buildEventsLive (log10 : ℚ → ℚ) (hop sr : ℕ)
    (energy cents rolls zcrs : List ℚ) :
    List ℕ → Except String (List LiveEvent)
  | [] => .ok []
  | p :: rest => do
    let f ← alignFeatures p cents rolls zcrs
    let amplitude := energy.getD p 0
    let evs ← buildEventsLive log10 hop sr energy cents rolls zcrs rest
    .ok ({ time := rnd 2 ((p * hop : ℕ) / (sr : ℚ))
           frequency := rnd 1 f.1
           amplitude := rnd 3 amplitude
           type := (classifyExtended f.1 f.2.1 f.2.2).1
           confidence := (classifyExtended f.1 f.2.1 f.2.2).2
           decibels := Db.round 1 (dbOf log10 amplitude)
           rolloff := rnd 1 f.2.1
           zcr := rnd 3 f.2.2 } :: evs)

/-- Python's stable `list.sort(key=lambda x: x[amplitude], reverse=True)`
(`audio_analysis.py` line 111, `live_audio_analysis.py` line 184):
insertion sort into descending amplitude order; insertion keeps an earlier
element ahead of later elements of equal amplitude, which is exactly the
stability CPython's Timsort guarantees. -/
def sortByAmpDesc {α : Type _} (amp : α → ℚ) (l : List α) : List α :=
  List.insertionSort (fun a b => amp b ≤ amp a) l

/-- Basic spectrum builder, `audio_analysis.py` lines 114-121: stride
`len(frequency) // 100`; `range(0, len(frequency)//2, 0)` raises
`ValueError` in Python whenever the stride is zero, and the loop body
appends a point only under the guard `i < len(magnitude)`. -/
def buildSpectrum (K : ℕ) (freq mag : List ℚ) : Except String (List (ℚ × ℚ)) :=
  let step := freq.length / K
  if step = 0 then .error "range() arg 3 must not be zero"
  else
    .ok ((List.range' 0 ((freq.length / 2 + step - 1) / step) step).filterMap
      fun i =>
        if i < mag.length then
          some (rnd 1 (freq.getD i 0),
            if 0 < npMaxD mag then rnd 3 (mag.getD i 0 / npMaxD mag) else 0)
        else none)

/-- Live spectrum builder, `live_audio_analysis.py` lines 200-207: same
loop with the stride guarded by `max(1, freq_step)`, so it never raises. -/
def buildSpectrumLive (K : ℕ) (freq mag : List ℚ) : List (ℚ × ℚ) :=
  let step := max 1 (freq.length / K)
  (List.range' 0 ((freq.length / 2 + step - 1) / step) step).filterMap
    fun i =>
      if i < mag.length then
        some (rnd 1 (freq.getD i 0),
          if 0 < npMaxD mag then rnd 3 (mag.getD i 0 / npMaxD mag) else 0)
      else none

/-- The Basic Analysis Result, `audio_analysis.py` lines 126-138 (the
filename and the constant timestamp are serialization details carrying no
behaviour). -/
structure BasicResult where
  duration : ℚ
  sampleRate : ℕ
  averageRMS : ℚ
  detectedSounds : ℕ
  dominantFrequency : ℚ
  maxDecibels : Db
  soundEvents : List BasicEvent
  frequencySpectrum : List (ℚ × ℚ)
  analysisComplete : Bool
deriving Repr

/-- The Live Analysis Result, `live_audio_analysis.py` lines 212-242.  The
visualization payloads (STFT/spectrogram heatmaps, raw FFT trace, energy
trace) are pass-throughs of external collaborator data and are not
modelled; the MFCC means are likewise external pass-throughs. -/
structure LiveResult where
  duration : ℚ
  sampleRate : ℕ
  averageRMS : ℚ
  detectedSounds : ℕ
  dominantFrequency : ℚ
  maxDecibels : Db
  soundEvents : List LiveEvent
  frequencySpectrum : List (ℚ × ℚ)
  meanSpectralCentroid : ℚ
  meanSpectralRolloff : ℚ
  meanZeroCrossingRate : ℚ
  analysisComplete : Bool
deriving Repr

/-- The core of `analyze_audio` (`audio_analysis.py` lines 58-138), in the
script's line order.  Waveform `y` and sample rate come from the Decoder;
the per-frame centroids `cents`, the transform magnitude `mag` and the
mean RMS are supplied by the external Transform Provider, and `log10` is
the uninterpreted floating-point logarithm. -/
def analyzeBasic (log10 : ℚ → ℚ) (y : List ℚ) (sr : ℕ) (cents mag : List ℚ)
    (rms : ℚ) : Except String BasicResult := do
  let energy := frameEnergies 1024 512 y
  let nenergy ← normalizeEnergy energy
  let peaks := findPeaks 0.2 5 nenergy
  let duration := (y.length : ℚ) / (sr : ℚ)
  let domFreq := npMean cents
  let maxAbs ← npMax (y.map fun v => |v|)
  let maxDb := if 0 < maxAbs then Db.val (20 * log10 maxAbs) else Db.negInf
  let events ← buildEventsBasic log10 512 sr nenergy cents peaks
  let sorted := sortByAmpDesc (fun e => e.amplitude) events
  let frequency := linspace 0 (sr : ℚ) mag.length
  let spectrum ← buildSpectrum 100 frequency mag
  .ok { duration := rnd 2 duration
        sampleRate := sr
        averageRMS := rnd 6 rms
        detectedSounds := peaks.length
        dominantFrequency := rnd 1 domFreq
        maxDecibels := Db.round 1 maxDb
        soundEvents := sorted.take 10
        frequencySpectrum := spectrum
        analysisComplete := true }

/-- The core of `generate_live_analysis` (`live_audio_analysis.py` lines
100-242), in the script's line order, with the same external inputs plus
rolloff and zero-crossing-rate frames. -/
def analyzeLive (log10 : ℚ → ℚ) (y : List ℚ) (sr : ℕ)
    (cents rolls zcrs mag : List ℚ) (rms : ℚ) : Except String LiveResult := do
  let energy := frameEnergies 1024 512 y
  let nenergy ← normalizeEnergy energy
  let peaks := findPeaks 0.2 5 nenergy
  let events ← buildEventsLive log10 512 sr nenergy cents rolls zcrs peaks
  let sorted := sortByAmpDesc (fun e => e.amplitude) events
  let duration := (y.length : ℚ) / (sr : ℚ)
  let domFreq := npMean cents
  let maxAbs ← npMax (y.map fun v => |v|)
  let maxDb := if 0 < maxAbs then Db.val (20 * log10 maxAbs) else Db.negInf
  let frequency := linspace 0 (sr : ℚ) mag.length
  let spectrum := buildSpectrumLive 200 frequency mag
  .ok { duration := rnd 2 duration
        sampleRate := sr
        averageRMS := rnd 6 rms
        detectedSounds := peaks.length
        dominantFrequency := rnd 1 domFreq
        maxDecibels := Db.round 1 maxDb
        soundEvents := sorted.take 15
        frequencySpectrum := spectrum
        meanSpectralCentroid := rnd 1 (npMean cents)
        meanSpectralRolloff := rnd 1 (npMean rolls)
        meanZeroCrossingRate := rnd 3 (npMean zcrs)
        analysisComplete := true }

/-- Equality of modelled fallible results is decidable, enabling concrete
evaluations in the kernel. -/
instance exceptDecEq {ε α : Type _} [DecidableEq ε] [DecidableEq α] :
    DecidableEq (Except ε α) := fun a b => by
  cases a <;> cases b
  case error.error e f =>
    exact if h : e = f then isTrue (by rw [h]) else isFalse (by simp [h])
  case error.ok e v => exact isFalse (by simp)
  case ok.error v e => exact isFalse (by simp)
  case ok.ok v w =>
    exact if h : v = w then isTrue (by rw [h]) else isFalse (by simp [h])

/-- C3 (amended): for a non-empty centroid array, the Feature Aligner reads
the centroid at `min(peakIndex, len(centroids) - 1)` — so a peak index at
or beyond the centroid array's length resolves to that array's last entry
and raises no error — and it reads the rolloff at that same
centroid-clamped index (raising if that index is outside the rolloff
array), while the zero-crossing rate at that index falls back to `0`, not
to the zcr array's last entry, when the index is out of range for the zcr
array.  The Basic variant aligns only the centroid, with the same clamp. -/
theorem feature_aligner_spec (peak : ℕ) (cents rolls zcrs : List ℚ)
    (hc : cents ≠ []) (hr : min peak (cents.length - 1) < rolls.length) :
    alignFeatures peak cents rolls zcrs =
      .ok (cents.getD (min peak (cents.length - 1)) 0,
        rolls.getD (min peak (cents.length - 1)) 0,
        if min peak (cents.length - 1) < zcrs.length then
          zcrs.getD (min peak (cents.length - 1)) 0 else 0) ∧
    (cents.length ≤ peak →
      cents.getD (min peak (cents.length - 1)) 0 = cents.getLastD 0) ∧
    alignFreqBasic peak cents = .ok (cents.getD (min peak (cents.length - 1)) 0) := by
  match cents with
  | [] => exact absurd rfl hc
  | c0 :: ctl =>
    refine ⟨?_, ?_, rfl⟩
    · rw [alignFeatures]
      rw [if_pos hr]
    · intro hp
      have hmin : min peak ((c0 :: ctl).length - 1) = (c0 :: ctl).length - 1 := by
        simp only [List.length_cons] at hp ⊢
        omega
      rw [hmin]
      have hlt : (c0 :: ctl).length - 1 < (c0 :: ctl).length := by
        simp only [List.length_cons]
        omega
      rw [getD_of_lt _ _ hlt]
      rw [List.getLastD_eq_getLast?, List.getLast?_eq_getElem?,
        List.getElem?_eq_getElem hlt, Option.getD_some]

/-- C3 counterexample: with centroids `[1,2,3]`, rolloff `[4,5,6]` and zcr
`[7]`, peak 2 aligns zcr to the fallback `0` — not to `zcr[min(2, 0)] = 7`,
the last zcr entry the claim requires; and with rolloff `[4]` the aligner
raises an out-of-range error rather than clamping to the rolloff array's
own length. -/
theorem feature_aligner_counterexample :
    alignFeatures 2 [1, 2, 3] [4, 5, 6] [7] = .ok (3, 6, 0) ∧
    ¬ alignFeatures 2 [1, 2, 3] [4, 5, 6] [7] =
      .ok (3, 6, [(7 : ℚ)].getD (min 2 ([(7 : ℚ)].length - 1)) 0) ∧
    alignFeatures 5 [1, 2, 3] [4] [7] = .error "index out of bounds for axis 0" := by
  refine ⟨?_, ?_, ?_⟩ <;> with_unfolding_all decide

/-- Witness for C3: peak 5 against centroid array `[1, 2]` clamps to the
last centroid; the rolloff is read at the same index 1; the empty zcr
array falls back to 0. -/
theorem feature_aligner_spec_witness :
    alignFeatures 5 [1, 2] [3, 4] [] = .ok (2, 4, 0) := by
  have h := (feature_aligner_spec 5 [1, 2] [3, 4] [] (by simp)
    (by with_unfolding_all decide)).1
  rw [h]
  with_unfolding_all decide

/-- C4 (amended): on the empty waveform (zero samples) both analyzers reach
`np.max` over the zero-size energy array inside the normalization step,
which raises, and the analysis returns an Analysis Failure — not the
Degenerate Signal success result with duration 0 and detectedSounds 0 that
the claim requires. -/
theorem analyze_empty_fails (log10 : ℚ → ℚ) (sr : ℕ)
    (cents rolls zcrs mag : List ℚ) (rms : ℚ) :
    analyzeBasic log10 [] sr cents mag rms =
      .error "zero-size array to reduction operation maximum which has no identity" ∧
    analyzeLive log10 [] sr cents rolls zcrs mag rms =
      .error "zero-size array to reduction operation maximum which has no identity" := by
  exact ⟨rfl, rfl⟩

/-- C4 counterexample: at a concrete empty input, `analyze` produces an
error value, so no success Analysis Result exists. -/
theorem analyze_empty_counterexample :
    (analyzeBasic (fun _ => 0) [] 44100 [] [] 0).toOption = none ∧
    (analyzeLive (fun _ => 0) [] 44100 [] [] [] [] 0).toOption = none := by
  exact ⟨rfl, rfl⟩

theorem localMaximaAux_short (x : List ℚ) :
    ∀ fuel i, x.length ≤ i + 1 → localMaximaAux x fuel i = [] := by
  intro fuel
  induction fuel with
  | zero => intro i _; rfl
  | succ fuel _ => intro i h; rw [localMaximaAux, if_neg (by omega)]

theorem findPeaks_of_short (h : ℚ) (d : ℤ) (x : List ℚ) (hx : x.length ≤ 2) :
    findPeaks h d x = [] := by
  have h1 : localMaxima x = [] := localMaximaAux_short x x.length 1 (by omega)
  unfold findPeaks peakCandidates
  rw [h1]
  rfl

theorem npMaxD_of_zeros (mag : List ℚ) (hz : ∀ m ∈ mag, m = 0) : npMaxD mag = 0 := by
  match mag with
  | [] => rfl
  | x :: r =>
    show r.foldl max x = 0
    rcases (foldl_max_spec r x).1 with h | h
    · rw [h]; exact hz x (List.mem_cons_self x r)
    · exact hz _ (List.mem_cons_of_mem x h)

theorem frameEnergies_zeros (fl hl : ℕ) (y : List ℚ) (hz : ∀ v ∈ y, v = 0) :
    ∀ e ∈ frameEnergies fl hl y, e = 0 := by
  intro e he
  rw [frameEnergies] at he
  obtain ⟨i, _, rfl⟩ := List.mem_map.mp he
  refine List.sum_eq_zero ?_
  intro q hq
  obtain ⟨v, hv, rfl⟩ := List.mem_map.mp hq
  have hvy : v ∈ y := List.mem_of_mem_drop (List.mem_of_mem_take hv)
  rw [hz v hvy]
  norm_num

theorem findPeaks_of_zeros (h : ℚ) (d : ℤ) (x : List ℚ) (hz : ∀ v ∈ x, v = 0) :
    findPeaks h d x = [] := by
  have h1 : localMaxima x = [] := localMaximaAux_const_zero x hz x.length 1
  unfold findPeaks peakCandidates
  rw [h1]
  rfl

/-- C7: for every silent (all-zero, non-empty) waveform, the energy
envelope is all zero and normalization leaves it unchanged, the peak list
is empty, the sound-event list is empty, `np.max(np.abs(y))` is zero so
the max-decibel value is the negative-infinity sentinel
(`Db.round 1 (dbOf log10 0) = Db.negInf` definitionally), and — since the
Transform Provider maps a zero signal to all-zero magnitudes — every
magnitude the spectrum builder emits is the zero fallback. -/
theorem silent_waveform_spec (log10 : ℚ → ℚ) (fl hl sr : ℕ) (y : List ℚ)
    (hhl : 0 < hl) (hy : y ≠ []) (hz : ∀ v ∈ y, v = 0)
    (cents freq mag : List ℚ) (hmz : ∀ m ∈ mag, m = 0) :
    (∀ e ∈ frameEnergies fl hl y, e = 0) ∧
    normalizeEnergy (frameEnergies fl hl y) = .ok (frameEnergies fl hl y) ∧
    findPeaks 0.2 5 (frameEnergies fl hl y) = [] ∧
    buildEventsBasic log10 hl sr (frameEnergies fl hl y) cents
      (findPeaks 0.2 5 (frameEnergies fl hl y)) = .ok [] ∧
    npMax (y.map fun v => |v|) = .ok 0 ∧
    dbOf log10 0 = Db.negInf ∧
    (∀ pts, buildSpectrum 100 freq mag = .ok pts → ∀ p ∈ pts, p.2 = 0) := by
  have hez := frameEnergies_zeros fl hl y hz
  have hfz := findPeaks_of_zeros 0.2 5 _ hez
  refine ⟨hez, ?_, hfz, ?_, ?_, ?_, ?_⟩
  · obtain ⟨hlen, hent, m, hm1, hm2, hm3, hm4⟩ := frame_energy_extractor fl hl y hhl hy
    have hm0 : m = 0 := hez m hm2
    rw [hm4, hm0]
    rw [if_neg (lt_irrefl 0)]
  · rw [hfz]; rfl
  · have hne : y.map (fun v => |v|) ≠ [] := by
      cases y with
      | nil => exact absurd rfl hy
      | cons a t => simp
    obtain ⟨m, hm1, hm2, hm3⟩ := npMax_spec _ hne
    have hm0 : m = 0 := by
      obtain ⟨v, hv, rfl⟩ := List.mem_map.mp hm2
      rw [hz v hv]
      exact abs_zero
    rw [hm1, hm0]
  · rw [dbOf, if_neg (lt_irrefl 0)]
  · intro pts hok p hp
    simp only [buildSpectrum] at hok
    by_cases hstep : freq.length / 100 = 0
    · rw [if_pos hstep] at hok
      exact absurd hok (by simp)
    · rw [if_neg hstep] at hok
      have hpts := (Except.ok.injEq _ _).mp hok
      rw [← hpts] at hp
      obtain ⟨i, hi, hsome⟩ := List.mem_filterMap.mp hp
      by_cases him : i < mag.length
      · rw [if_pos him] at hsome
        have hsome2 := (Option.some.injEq _ _).mp hsome
        rw [← hsome2]
        simp [npMaxD_of_zeros mag hmz]
      · rw [if_neg him] at hsome
        exact absurd hsome (by simp)

/-- Witness for C7: the one-sample silent waveform `[0]` yields an empty
peak list. -/
theorem silent_waveform_spec_witness :
    findPeaks 0.2 5 (frameEnergies 1024 512 [(0 : ℚ)]) = [] :=
  (silent_waveform_spec (fun _ => 0) 1024 512 44100 [0] (by norm_num) (by simp)
    (by simp) [] [] [] (by simp)).2.2.1

theorem orderedInsert_filter_amp_eq {α : Type _} (amp : α → ℚ) (a : ℚ) (x : α)
    (hxa : amp x = a) :
    ∀ l : List α,
      (List.orderedInsert (fun p q => amp q ≤ amp p) x l).filter
          (fun e => amp e = a) =
        x :: l.filter (fun e => amp e = a) := by
  intro l
  induction l with
  | nil => simp [hxa]
  | cons y t ih =>
    rw [List.orderedInsert]
    by_cases hr : amp y ≤ amp x
    · rw [if_pos hr, List.filter_cons_of_pos (by simpa using hxa)]
    · rw [if_neg hr]
      have hya : ¬ amp y = a := fun hcon => hr (le_of_eq (by rw [hcon, hxa]))
      rw [List.filter_cons_of_neg (by simpa using hya), ih,
        List.filter_cons_of_neg (by simpa using hya)]

theorem orderedInsert_filter_amp_ne {α : Type _} (amp : α → ℚ) (a : ℚ) (x : α)
    (hxa : ¬ amp x = a) :
    ∀ l : List α,
      (List.orderedInsert (fun p q => amp q ≤ amp p) x l).filter
          (fun e => amp e = a) =
        l.filter (fun e => amp e = a) := by
  intro l
  induction l with
  | nil => simp [hxa]
  | cons y t ih =>
    rw [List.orderedInsert]
    by_cases hr : amp y ≤ amp x
    · rw [if_pos hr, List.filter_cons_of_neg (by simpa using hxa)]
    · rw [if_neg hr]
      by_cases hya : amp y = a
      · rw [List.filter_cons_of_pos (by simpa using hya), ih,
          List.filter_cons_of_pos (by simpa using hya)]
      · rw [List.filter_cons_of_neg (by simpa using hya), ih,
          List.filter_cons_of_neg (by simpa using hya)]

theorem sortByAmpDesc_filter_amp {α : Type _} (amp : α → ℚ) (a : ℚ) :
    ∀ l : List α,
      (sortByAmpDesc amp l).filter (fun e => amp e = a) =
        l.filter (fun e => amp e = a) := by
  intro l
  induction l with
  | nil => rfl
  | cons x t ih =>
    simp only [sortByAmpDesc, List.insertionSort]
    simp only [sortByAmpDesc] at ih
    by_cases hxa : amp x = a
    · rw [orderedInsert_filter_amp_eq amp a x hxa, ih,
        List.filter_cons_of_pos (by simpa using hxa)]
    · rw [orderedInsert_filter_amp_ne amp a x hxa, ih,
        List.filter_cons_of_neg (by simpa using hxa)]

theorem sortByAmpDesc_sorted {α : Type _} (amp : α → ℚ) (l : List α) :
    List.Sorted (fun e1 e2 => amp e2 ≤ amp e1) (sortByAmpDesc amp l) := by
  haveI : IsTotal α (fun e1 e2 => amp e2 ≤ amp e1) :=
    ⟨fun a b => le_total (amp b) (amp a)⟩
  haveI : IsTrans α (fun e1 e2 => amp e2 ≤ amp e1) :=
    ⟨fun a b c h1 h2 => le_trans h2 h1⟩
  exact List.sorted_insertionSort _ l

theorem sortByAmpDesc_perm {α : Type _} (amp : α → ℚ) (l : List α) :
    (sortByAmpDesc amp l).Perm l :=
  List.perm_insertionSort _ l

theorem analyzeBasic_ok_soundEvents (log10 : ℚ → ℚ) (y : List ℚ) (sr : ℕ)
    (cents mag : List ℚ) (rms : ℚ) (r : BasicResult)
    (hok : analyzeBasic log10 y sr cents mag rms = .ok r) :
    ∃ evts, r.soundEvents =
      (sortByAmpDesc (fun e : BasicEvent => e.amplitude) evts).take 10 := by
  simp only [analyzeBasic] at hok
  cases hn : normalizeEnergy (frameEnergies 1024 512 y) with
  | error e =>
    rw [hn] at hok
    simp only [except_bind_err] at hok
    exact absurd hok (by simp)
  | ok nen =>
    rw [hn] at hok
    simp only [except_bind_ok] at hok
    cases hm : npMax (y.map fun v => |v|) with
    | error e =>
      rw [hm] at hok
      simp only [except_bind_err] at hok
      exact absurd hok (by simp)
    | ok maxAbs =>
      rw [hm] at hok
      simp only [except_bind_ok] at hok
      cases he : buildEventsBasic log10 512 sr nen cents (findPeaks 0.2 5 nen) with
      | error e =>
        rw [he] at hok
        simp only [except_bind_err] at hok
        exact absurd hok (by simp)
      | ok evts =>
        rw [he] at hok
        simp only [except_bind_ok] at hok
        cases hs : buildSpectrum 100 (linspace 0 (sr : ℚ) mag.length) mag with
        | error e =>
          rw [hs] at hok
          simp only [except_bind_err] at hok
          exact absurd hok (by simp)
        | ok spec =>
          rw [hs] at hok
          simp only [except_bind_ok] at hok
          have hr2 := (Except.ok.injEq _ _).mp hok
          exact ⟨evts, by rw [← hr2]⟩

theorem analyzeLive_ok_soundEvents (log10 : ℚ → ℚ) (y : List ℚ) (sr : ℕ)
    (cents rolls zcrs mag : List ℚ) (rms : ℚ) (r : LiveResult)
    (hok : analyzeLive log10 y sr cents rolls zcrs mag rms = .ok r) :
    ∃ levts, r.soundEvents =
      (sortByAmpDesc (fun e : LiveEvent => e.amplitude) levts).take 15 := by
  simp only [analyzeLive] at hok
  cases hn : normalizeEnergy (frameEnergies 1024 512 y) with
  | error e =>
    rw [hn] at hok
    simp only [except_bind_err] at hok
    exact absurd hok (by simp)
  | ok nen =>
    rw [hn] at hok
    simp only [except_bind_ok] at hok
    cases he : buildEventsLive log10 512 sr nen cents rolls zcrs
        (findPeaks 0.2 5 nen) with
    | error e =>
      rw [he] at hok
      simp only [except_bind_err] at hok
      exact absurd hok (by simp)
    | ok levts =>
      rw [he] at hok
      simp only [except_bind_ok] at hok
      cases hm : npMax (y.map fun v => |v|) with
      | error e =>
        rw [hm] at hok
        simp only [except_bind_err] at hok
        exact absurd hok (by simp)
      | ok maxAbs =>
        rw [hm] at hok
        simp only [except_bind_ok] at hok
        have hr2 := (Except.ok.injEq _ _).mp hok
        exact ⟨levts, by rw [← hr2]⟩

/-- C8: the event list is sorted by amplitude in non-increasing order by a
stable sort — a permutation of the built events in which the events of any
fixed amplitude keep their original (peak) order — and the reported list
is truncated to at most the top 10 events for the Basic report and 15 for
the Extended (live) report. -/
theorem report_sort_spec (evts : List BasicEvent) (levts : List LiveEvent)
    (a b : ℚ) (log10 : ℚ → ℚ) (y : List ℚ) (sr : ℕ)
    (cents rolls zcrs mag : List ℚ) (rms : ℚ) :
    List.Sorted (fun e1 e2 : BasicEvent => e2.amplitude ≤ e1.amplitude)
      (sortByAmpDesc (fun e : BasicEvent => e.amplitude) evts) ∧
    (sortByAmpDesc (fun e : BasicEvent => e.amplitude) evts).Perm evts ∧
    (sortByAmpDesc (fun e : BasicEvent => e.amplitude) evts).filter
        (fun e => e.amplitude = a) = evts.filter (fun e => e.amplitude = a) ∧
    List.Sorted (fun e1 e2 : LiveEvent => e2.amplitude ≤ e1.amplitude)
      (sortByAmpDesc (fun e : LiveEvent => e.amplitude) levts) ∧
    (sortByAmpDesc (fun e : LiveEvent => e.amplitude) levts).Perm levts ∧
    (sortByAmpDesc (fun e : LiveEvent => e.amplitude) levts).filter
        (fun e => e.amplitude = b) = levts.filter (fun e => e.amplitude = b) ∧
    (∀ r, analyzeBasic log10 y sr cents mag rms = .ok r →
      List.Sorted (fun e1 e2 : BasicEvent => e2.amplitude ≤ e1.amplitude)
        r.soundEvents ∧ r.soundEvents.length ≤ 10) ∧
    (∀ r, analyzeLive log10 y sr cents rolls zcrs mag rms = .ok r →
      List.Sorted (fun e1 e2 : LiveEvent => e2.amplitude ≤ e1.amplitude)
        r.soundEvents ∧ r.soundEvents.length ≤ 15) := by
  refine ⟨sortByAmpDesc_sorted _ evts, sortByAmpDesc_perm _ evts,
    sortByAmpDesc_filter_amp _ a evts, sortByAmpDesc_sorted _ levts,
    sortByAmpDesc_perm _ levts, sortByAmpDesc_filter_amp _ b levts, ?_, ?_⟩
  · intro r hok
    obtain ⟨evts2, heq⟩ := analyzeBasic_ok_soundEvents log10 y sr cents mag rms r hok
    rw [heq]
    refine ⟨List.Pairwise.sublist (List.take_sublist _ _)
      (sortByAmpDesc_sorted _ evts2), ?_⟩
    exact List.length_take_le _ _
  · intro r hok
    obtain ⟨levts2, heq⟩ :=
      analyzeLive_ok_soundEvents log10 y sr cents rolls zcrs mag rms r hok
    rw [heq]
    refine ⟨List.Pairwise.sublist (List.take_sublist _ _)
      (sortByAmpDesc_sorted _ levts2), ?_⟩
    exact List.length_take_le _ _

/-- Witness for C8: two equal-amplitude events keep their original order
through the descending stable sort. -/
theorem report_sort_spec_witness :
    (sortByAmpDesc (fun e : BasicEvent => e.amplitude)
        [⟨0, 0, 1, "a", .negInf⟩, ⟨1, 1, 1, "b", .negInf⟩]).filter
        (fun e => e.amplitude = 1) =
      ([⟨0, 0, 1, "a", .negInf⟩, ⟨1, 1, 1, "b", .negInf⟩] :
        List BasicEvent).filter (fun e => e.amplitude = 1) :=
  (report_sort_spec [⟨0, 0, 1, "a", .negInf⟩, ⟨1, 1, 1, "b", .negInf⟩] [] 1 0
    (fun _ => 0) [] 0 [] [] [] [] 0).2.2.1

theorem filterMap_eq_map_of_some {α β : Type _} (l : List α) (f : α → Option β)
    (g : α → β) (h : ∀ x ∈ l, f x = some (g x)) : l.filterMap f = l.map g := by
  induction l with
  | nil => rfl
  | cons a t ih =>
    rw [List.filterMap_cons, h a (List.mem_cons_self a t), List.map_cons,
      ih fun x hx => h x (List.mem_cons_of_mem a hx)]

theorem linspace_length (a b : ℚ) (n : ℕ) : (linspace a b n).length = n := by
  rw [linspace]
  split_ifs with h0 h1
  · rw [h0]; rfl
  · rw [h1]; rfl
  · rw [List.length_map, List.length_range]

theorem spectrum_loop_spec (freq mag : List ℚ) (step : ℕ) (hstep : 0 < step)
    (hlen : mag.length = freq.length) :
    ((List.range' 0 ((freq.length / 2 + step - 1) / step) step).filterMap fun i =>
        if i < mag.length then
          some (rnd 1 (freq.getD i 0),
            if 0 < npMaxD mag then rnd 3 (mag.getD i 0 / npMaxD mag) else 0)
        else none).length = (freq.length / 2 + step - 1) / step ∧
    ∀ k, k < (freq.length / 2 + step - 1) / step →
      k * step < freq.length / 2 ∧
      ((List.range' 0 ((freq.length / 2 + step - 1) / step) step).filterMap fun i =>
          if i < mag.length then
            some (rnd 1 (freq.getD i 0),
              if 0 < npMaxD mag then rnd 3 (mag.getD i 0 / npMaxD mag) else 0)
          else none).getD k (0, 0) =
        (rnd 1 (freq.getD (k * step) 0),
          if 0 < npMaxD mag then rnd 3 (mag.getD (k * step) 0 / npMaxD mag) else 0) := by
  have hkey : ∀ k, k < (freq.length / 2 + step - 1) / step →
      k * step < freq.length / 2 := by
    intro k hk
    have h1 : (k + 1) * step ≤ ((freq.length / 2 + step - 1) / step) * step :=
      Nat.mul_le_mul_right step hk
    have h2 : ((freq.length / 2 + step - 1) / step) * step ≤
        freq.length / 2 + step - 1 := Nat.div_mul_le_self _ _
    have h3 : (k + 1) * step = k * step + step := by ring
    rw [h3] at h1
    have h4 : k * step + step ≤ freq.length / 2 + step - 1 := le_trans h1 h2
    generalize k * step = K at h4 ⊢
    omega
  have hguard : ∀ i ∈ List.range' 0 ((freq.length / 2 + step - 1) / step) step,
      (if i < mag.length then
          some (rnd 1 (freq.getD i 0),
            if 0 < npMaxD mag then rnd 3 (mag.getD i 0 / npMaxD mag) else 0)
        else none) =
      some (rnd 1 (freq.getD i 0),
        if 0 < npMaxD mag then rnd 3 (mag.getD i 0 / npMaxD mag) else 0) := by
    intro i hi
    obtain ⟨k, hk, rfl⟩ := List.mem_range'.mp hi
    have h6 : k * step < freq.length / 2 := hkey k hk
    have hhalf : freq.length / 2 ≤ freq.length := Nat.div_le_self _ _
    have h7 : 0 + step * k = k * step := by ring
    rw [h7]
    refine if_pos ?_
    rw [hlen]
    generalize k * step = K at h6 ⊢
    omega
  have hmap := filterMap_eq_map_of_some _ _ _ hguard
  rw [hmap]
  constructor
  · rw [List.length_map, List.length_range']
  · intro k hk
    refine ⟨hkey k hk, ?_⟩
    have hk2 : k < (List.map (fun x => (rnd 1 (freq.getD x 0),
        if 0 < npMaxD mag then rnd 3 (mag.getD x 0 / npMaxD mag) else 0))
        (List.range' 0 ((freq.length / 2 + step - 1) / step) step)).length := by
      rw [List.length_map, List.length_range']
      exact hk
    rw [getD_of_lt _ _ hk2, List.getElem_map, List.getElem_range']
    have : 0 + step * k = k * step := by ring
    rw [this]

/-- C9 (amended): provided the frequency axis has at least `K` entries (so
the integer stride `len(frequencies) // K` is at least 1), the Basic
spectrum summary samples the positive half of the magnitude array at that
stride — point `k` comes from index `k * stride`, every sampled index lies
in the positive half — normalizing each magnitude by the global maximum
(`npMaxD`, which is the greatest magnitude), with fallback 0 when the
maximum is not positive, and rounding to 3 decimals (frequencies to 1);
K = 100 for Basic and K = 200 for Extended, and the Extended variant
clamps the stride to at least 1 so it needs no length precondition.
Without the precondition the Basic variant raises instead of producing a
summary (see the counterexample). -/
theorem spectrum_sampling_spec (freq mag : List ℚ) (hlen : mag.length = freq.length) :
    (mag ≠ [] → npMaxD mag ∈ mag ∧ ∀ v ∈ mag, v ≤ npMaxD mag) ∧
    (100 ≤ freq.length →
      ∃ pts, buildSpectrum 100 freq mag = .ok pts ∧
        pts.length = (freq.length / 2 + freq.length / 100 - 1) / (freq.length / 100) ∧
        ∀ k, k < pts.length →
          k * (freq.length / 100) < freq.length / 2 ∧
          pts.getD k (0, 0) =
            (rnd 1 (freq.getD (k * (freq.length / 100)) 0),
              if 0 < npMaxD mag then
                rnd 3 (mag.getD (k * (freq.length / 100)) 0 / npMaxD mag)
              else 0)) ∧
    ((buildSpectrumLive 200 freq mag).length =
        (freq.length / 2 + max 1 (freq.length / 200) - 1) /
          max 1 (freq.length / 200) ∧
      ∀ k, k < (buildSpectrumLive 200 freq mag).length →
        k * max 1 (freq.length / 200) < freq.length / 2 ∧
        (buildSpectrumLive 200 freq mag).getD k (0, 0) =
          (rnd 1 (freq.getD (k * max 1 (freq.length / 200)) 0),
            if 0 < npMaxD mag then
              rnd 3 (mag.getD (k * max 1 (freq.length / 200)) 0 / npMaxD mag)
            else 0)) := by
  refine ⟨?_, ?_, ?_⟩
  · intro hne
    match mag with
    | [] => exact absurd rfl hne
    | x :: r =>
      constructor
      · show r.foldl max x ∈ x :: r
        rcases (foldl_max_spec r x).1 with h | h
        · rw [h]; exact List.mem_cons_self x r
        · exact List.mem_cons_of_mem x h
      · intro v hv
        rcases List.mem_cons.mp hv with rfl | hv
        · exact (foldl_max_spec r v).2.1
        · exact (foldl_max_spec r x).2.2 v hv
  · intro h100
    have hstep : 0 < freq.length / 100 := Nat.div_pos h100 (by norm_num)
    obtain ⟨hl2, hpt⟩ := spectrum_loop_spec freq mag (freq.length / 100) hstep hlen
    refine ⟨_, ?_, hl2, ?_⟩
    · simp only [buildSpectrum]
      rw [if_neg (by omega)]
    · intro k hk
      rw [hl2] at hk
      exact hpt k hk
  · have hstep : 0 < max 1 (freq.length / 200) := by omega
    obtain ⟨hl2, hpt⟩ := spectrum_loop_spec freq mag (max 1 (freq.length / 200))
      hstep hlen
    refine ⟨hl2, ?_⟩
    intro k hk
    rw [show buildSpectrumLive 200 freq mag =
      (List.range' 0 ((freq.length / 2 + max 1 (freq.length / 200) - 1) /
        max 1 (freq.length / 200)) (max 1 (freq.length / 200))).filterMap
        (fun i => if i < mag.length then
            some (rnd 1 (freq.getD i 0),
              if 0 < npMaxD mag then rnd 3 (mag.getD i 0 / npMaxD mag) else 0)
          else none) from rfl] at hk ⊢
    rw [hl2] at hk
    exact hpt k hk

/-- C9 counterexample: on a 50-sample frequency axis the Basic stride
`50 // 100` is zero and the builder raises Python's zero-step `range`
error instead of producing the claimed down-sampled summary. -/
theorem spectrum_sampling_counterexample :
    buildSpectrum 100 (List.replicate 50 (0 : ℚ)) (List.replicate 50 (0 : ℚ)) =
      .error "range() arg 3 must not be zero" := by
  with_unfolding_all rfl

/-- Witness for C9: a 100-entry axis gives stride 1 and 50 sampled points. -/
theorem spectrum_sampling_spec_witness :
    ∃ pts, buildSpectrum 100 (List.replicate 100 (0 : ℚ))
        (List.replicate 100 (1 : ℚ)) = .ok pts ∧
      pts.length = ((List.replicate 100 (0 : ℚ)).length / 2 +
          (List.replicate 100 (0 : ℚ)).length / 100 - 1) /
        ((List.replicate 100 (0 : ℚ)).length / 100) ∧
      ∀ k, k < pts.length →
        k * ((List.replicate 100 (0 : ℚ)).length / 100) <
          (List.replicate 100 (0 : ℚ)).length / 2 ∧
        pts.getD k (0, 0) =
          (rnd 1 ((List.replicate 100 (0 : ℚ)).getD
            (k * ((List.replicate 100 (0 : ℚ)).length / 100)) 0),
            if 0 < npMaxD (List.replicate 100 (1 : ℚ)) then
              rnd 3 ((List.replicate 100 (1 : ℚ)).getD
                (k * ((List.replicate 100 (0 : ℚ)).length / 100)) 0 /
                npMaxD (List.replicate 100 (1 : ℚ)))
            else 0) :=
  (spectrum_sampling_spec (List.replicate 100 (0 : ℚ))
    (List.replicate 100 (1 : ℚ)) (by simp)).2.1 (by simp)

/-- C10: for every non-empty waveform with fewer than 100 samples (so the
frequency axis has fewer than 100 entries), the Basic variant's spectrum
stride `len(frequency) // 100` is zero and the spectrum loop raises,
turning the whole analysis into a failure result, whereas the Extended
(live) variant guards the stride with `max(1, freq_step)` and completes
successfully on the same input. -/
theorem small_waveform_divergence (log10 : ℚ → ℚ) (y : List ℚ) (sr : ℕ)
    (cents rolls zcrs mag : List ℚ) (rms : ℚ)
    (h1 : 0 < y.length) (h2 : y.length < 100) (h3 : mag.length = y.length) :
    y.length / 100 = 0 ∧
    analyzeBasic log10 y sr cents mag rms =
      .error "range() arg 3 must not be zero" ∧
    ∃ r, analyzeLive log10 y sr cents rolls zcrs mag rms = .ok r := by
  have hy : y ≠ [] := by
    intro h
    rw [h] at h1
    exact absurd h1 (by simp)
  obtain ⟨hlen, hent, m, hm1, hm2, hm3, hm4⟩ :=
    frame_energy_extractor 1024 512 y (by norm_num) hy
  have hlen1 : (frameEnergies 1024 512 y).length = 1 := by
    rw [hlen]
    omega
  set nen := if 0 < m then (frameEnergies 1024 512 y).map (· / m)
    else frameEnergies 1024 512 y with hnen
  have hnlen : nen.length ≤ 2 := by
    rw [hnen]
    split
    · rw [List.length_map, hlen1]
      omega
    · rw [hlen1]
      omega
  have hfp : findPeaks 0.2 5 nen = [] := findPeaks_of_short _ _ _ hnlen
  have hmapne : y.map (fun v => |v|) ≠ [] := by
    cases y with
    | nil => exact absurd rfl hy
    | cons a t => simp
  obtain ⟨ma, hma1, hma2, hma3⟩ := npMax_spec (y.map fun v => |v|) hmapne
  have hspec_err : buildSpectrum 100 (linspace 0 (sr : ℚ) mag.length) mag =
      .error "range() arg 3 must not be zero" := by
    simp only [buildSpectrum]
    rw [linspace_length]
    rw [if_pos (by omega)]
  refine ⟨by omega, ?_, ?_⟩
  · simp only [analyzeBasic]
    rw [hm4]
    simp only [except_bind_ok]
    rw [hfp, hma1]
    simp only [except_bind_ok]
    rw [show buildEventsBasic log10 512 sr nen cents [] = .ok [] from rfl]
    simp only [except_bind_ok]
    rw [hspec_err]
    simp only [except_bind_err]
  · simp only [analyzeLive]
    rw [hm4]
    simp only [except_bind_ok]
    rw [hfp]
    rw [show buildEventsLive log10 512 sr nen cents rolls zcrs [] = .ok [] from rfl]
    simp only [except_bind_ok]
    rw [hma1]
    simp only [except_bind_ok]
    exact ⟨_, rfl⟩

/-- Witness for C10: the one-sample waveform `[1]` fails in the Basic
variant and succeeds in the Extended variant. -/
theorem small_waveform_divergence_witness :
    ([(1 : ℚ)] : List ℚ).length / 100 = 0 ∧
    analyzeBasic (fun _ => 0) [(1 : ℚ)] 44100 [] [0] 0 =
      .error "range() arg 3 must not be zero" ∧
    ∃ r, analyzeLive (fun _ => 0) [(1 : ℚ)] 44100 [] [] [] [0] 0 = .ok r :=
  small_waveform_divergence (fun _ => 0) [1] 44100 [] [] [] [0] 0
    (by simp) (by simp) (by simp)

end AudioForensic
